import Mathlib

/-
Verification of the core routines of the radically simplified CaDiCaL CDCL
SAT solver (src/cadical.cc) against its natural-language specification.

The C++ routines are shallowly embedded: each mutable routine becomes a pure
Lean function from the state it reads to the state it writes.  C `double`
values are modelled as rationals, C `int`/`long` as `Int`/`Nat` (no relevant
overflow occurs in the claims under study).  Definitions mirror the source
line by line; theorems then state and settle the specification's claims.
-/

namespace Cadical

/-! ## Exponential moving averages (`struct EMA`, `EMA::update`) -/

/-- State of `struct EMA`: current `value`, target `alpha`, current upper
approximation `beta` of `alpha`, the count-down `wait` and the length
`period` of the current waiting phase. -/
structure EMA where
  value : ℚ
  alpha : ℚ
  beta : ℚ
  wait : ℤ
  period : ℤ
deriving DecidableEq, Repr

/-- The constructor `EMA (double a = 0)`: value 0, beta 1, wait = period = 0. -/
def EMA.init (a : ℚ) : EMA := ⟨0, a, 1, 0, 0⟩

/-- Translation of `EMA::update (double y, const char * name)`.

`value += beta * (y - value);` then
`if (beta <= alpha || wait--) return;` — the post-decrement tests the OLD
value of `wait` (as a C truth value, nonzero = true) and, by short-circuit,
`wait` is only decremented when `beta > alpha` — then
`wait = period = 2*(period + 1) - 1; beta *= 0.5; if (beta < alpha) beta = alpha;`. -/
def EMA.update (e : EMA) (y : ℚ) : EMA :=
  let v := e.value + e.beta * (y - e.value)
  if e.beta ≤ e.alpha then { e with value := v }
  else if e.wait ≠ 0 then { e with value := v, wait := e.wait - 1 }
  else
    let p : ℤ := 2 * (e.period + 1) - 1
    let b : ℚ := e.beta * (1 / 2)
    { value := v
      alpha := e.alpha
      beta := if b < e.alpha then e.alpha else b
      wait := p
      period := p }

/-- Modelled from the claim's words (for comparison with `EMA.update`):
"wait is decremented and, exactly when wait has just reached zero, period
becomes 2*(period+1)-1, wait is set to that new period, and beta is halved,
clamped up to alpha" — i.e. the halving triggers when the decrement brings
`wait` to zero, not when `wait` was already zero before the decrement. -/
def EMA.updateSpecC4 (e : EMA) (y : ℚ) : EMA :=
  let v := e.value + e.beta * (y - e.value)
  if e.beta ≤ e.alpha then { e with value := v }
  else
    let w : ℤ := e.wait - 1
    if w = 0 then
      let p : ℤ := 2 * (e.period + 1) - 1
      let b : ℚ := e.beta * (1 / 2)
      { value := v
        alpha := e.alpha
        beta := if b < e.alpha then e.alpha else b
        wait := p
        period := p }
    else { e with value := v, wait := w }

/-- Iterated updates with a constant observation, starting from the freshly
constructed average (as `INIT_EMA` does). -/
def EMA.iter (a y : ℚ) : ℕ → EMA
  | 0 => EMA.init a
  | n + 1 => (EMA.iter a y n).update y

theorem EMA.iter_state (a y : ℚ) :
    ∀ n : ℕ, a * 2 ^ Nat.log 2 (n + 1) < 1 →
      (EMA.iter a y n).alpha = a ∧
      (EMA.iter a y n).beta = (1 / 2 : ℚ) ^ Nat.log 2 (n + 1) ∧
      (EMA.iter a y n).wait = 2 ^ (Nat.log 2 (n + 1) + 1) - 2 - (n : ℤ) ∧
      (EMA.iter a y n).period = 2 ^ Nat.log 2 (n + 1) - 1 := by
  intro n
  induction n with
  | zero =>
    intro _
    simp [EMA.iter, EMA.init, Nat.log_one_right]
  | succ n ih =>
    intro h
    have hL : Nat.log 2 (n + 1) ≤ Nat.log 2 (n + 2) :=
      Nat.log_mono_right (by omega)
    have hprev : a * 2 ^ Nat.log 2 (n + 1) < 1 := by
      rcases le_or_lt 0 a with ha | ha
      · calc a * 2 ^ Nat.log 2 (n + 1) ≤ a * 2 ^ Nat.log 2 (n + 2) := by
              apply mul_le_mul_of_nonneg_left _ ha
              exact_mod_cast Nat.pow_le_pow_right (by norm_num) hL
          _ < 1 := h
      · calc a * 2 ^ Nat.log 2 (n + 1) < 0 := by
              apply mul_neg_of_neg_of_pos ha
              positivity
          _ < 1 := by norm_num
    obtain ⟨iha, ihb, ihw, ihp⟩ := ih hprev
    set L := Nat.log 2 (n + 1) with hLdef
    -- standard bracketing of n+1 by powers of two
    have hlow : 2 ^ L ≤ n + 1 := Nat.pow_log_le_self 2 (by omega)
    have hhigh : n + 1 < 2 ^ (L + 1) := Nat.lt_pow_succ_log_self (by norm_num) (n + 1)
    -- alpha is strictly below the current beta
    have halpha : a < (1 / 2 : ℚ) ^ L := by
      have h2 : (0 : ℚ) < 2 ^ L := by positivity
      rw [div_pow, one_pow, lt_div_iff₀ h2]
      calc a * 2 ^ L ≤ a * 2 ^ L := le_refl _
        _ < 1 := by exact_mod_cast hprev
    have hnotle : ¬ (EMA.iter a y n).beta ≤ (EMA.iter a y n).alpha := by
      rw [iha, ihb]; exact not_le_of_lt halpha
    by_cases hw : (EMA.iter a y n).wait = 0
    · -- the waiting phase ends: n + 2 = 2 ^ (L + 1)
      have hn2 : (n : ℤ) + 2 = 2 ^ (L + 1) := by
        have hz := ihw; rw [hw] at hz; linarith [hz]
      have hn2' : n + 2 = 2 ^ (L + 1) := by exact_mod_cast hn2
      have hL' : Nat.log 2 (n + 2) = L + 1 := by
        rw [hn2', Nat.log_pow (by norm_num)]
      have hnext : a < (1 / 2 : ℚ) ^ (L + 1) := by
        have h2 : (0 : ℚ) < 2 ^ (L + 1) := by positivity
        rw [div_pow, one_pow, lt_div_iff₀ h2]
        have hc := h; rw [show n + 1 + 1 = n + 2 from rfl, hL'] at hc
        exact_mod_cast hc
      have hw' : ¬ ((EMA.iter a y n).wait ≠ 0) := by simp [hw]
      refine ⟨?_, ?_, ?_, ?_⟩ <;>
        simp only [EMA.iter, EMA.update, if_neg hnotle, if_neg hw',
          show n + 1 + 1 = n + 2 from rfl, hL']
      · exact iha
      · have hnc : ¬ ((1 / 2 : ℚ) ^ L * (1 / 2) < a) := by
          rw [← pow_succ]; exact lt_asymm hnext
        rw [ihb, iha, if_neg hnc, pow_succ]
      · rw [ihp]
        have hnz : (n : ℤ) = 2 ^ (L + 1) - 2 := by linarith [hn2]
        push_cast [hnz]; rw [pow_succ, pow_succ]; ring
      · rw [ihp, pow_succ]; ring
    · -- still waiting: the log does not move
      have hne : n + 2 ≠ 2 ^ (L + 1) := by
        intro hcontra
        apply hw
        have hc : ((n : ℤ) + 2) = 2 ^ (L + 1) := by exact_mod_cast hcontra
        rw [ihw]; linarith [hc]
      have hL' : Nat.log 2 (n + 2) = L := by
        apply Nat.log_eq_of_pow_le_of_lt_pow
        · omega
        · omega
      refine ⟨?_, ?_, ?_, ?_⟩ <;>
        simp only [EMA.iter, EMA.update, if_neg hnotle, if_pos hw,
          show n + 1 + 1 = n + 2 from rfl, hL']
      · exact iha
      · exact ihb
      · rw [ihw]; push_cast; ring
      · exact ihp

/-- C4, counterexample.  At the state (value 0, alpha 0, beta 1/2, wait 1,
period 1) with observation 0, the code's `EMA::update` merely decrements
`wait` to 0 and keeps beta = 1/2 (the post-decrement `wait--` tests the OLD
value, 1, which is nonzero), while the claim's rule — halve exactly when the
decrement has just brought `wait` to zero — would halve beta to 1/4 and
start a new period of 3. -/
theorem ema_update_counterexample_C4 :
    EMA.update ⟨0, 0, 1/2, 1, 1⟩ 0 = ⟨0, 0, 1/2, 0, 1⟩ ∧
    EMA.updateSpecC4 ⟨0, 0, 1/2, 1, 1⟩ 0 = ⟨0, 0, 1/4, 3, 3⟩ ∧
    EMA.update ⟨0, 0, 1/2, 1, 1⟩ 0 ≠ EMA.updateSpecC4 ⟨0, 0, 1/2, 1, 1⟩ 0 := by
  refine ⟨?_, ?_, ?_⟩ <;>
    · simp only [EMA.update, EMA.updateSpecC4]
      norm_num [EMA.mk.injEq]

/-- C4 (amended).  For every EMA update with observation y the value becomes
value + beta*(y - value); if beta ≤ alpha nothing further happens; otherwise,
exactly when `wait` was zero BEFORE being decremented, period becomes
2*(period+1)-1, wait is set to that new period and beta is halved (clamped up
to alpha), and in all other cases `wait` is merely decremented.  Consequently
(last conjunct), starting from a fresh average, the beta in effect for update
number n+1 is (1/2)^⌊log₂(n+1)⌋ as long as alpha lies strictly below it:
beta = 1 for one update, 1/2 for two updates, 1/4 for four updates, and so
on, until beta reaches alpha. -/
theorem ema_update_spec_C4 :
    (∀ (e : EMA) (y : ℚ),
      (e.update y).value = e.value + e.beta * (y - e.value)) ∧
    (∀ (e : EMA) (y : ℚ), e.beta ≤ e.alpha →
      e.update y = { e with value := e.value + e.beta * (y - e.value) }) ∧
    (∀ (e : EMA) (y : ℚ), e.alpha < e.beta → e.wait ≠ 0 →
      e.update y = { e with value := e.value + e.beta * (y - e.value),
                            wait := e.wait - 1 }) ∧
    (∀ (e : EMA) (y : ℚ), e.alpha < e.beta → e.wait = 0 →
      e.update y = { value := e.value + e.beta * (y - e.value),
                     alpha := e.alpha,
                     beta := if e.beta * (1/2) < e.alpha then e.alpha
                             else e.beta * (1/2),
                     wait := 2 * (e.period + 1) - 1,
                     period := 2 * (e.period + 1) - 1 }) ∧
    (∀ (a y : ℚ) (n : ℕ), a * 2 ^ Nat.log 2 (n + 1) < 1 →
      (EMA.iter a y n).beta = (1 / 2 : ℚ) ^ Nat.log 2 (n + 1)) := by
  refine ⟨?_, ?_, ?_, ?_, ?_⟩
  · intro e y
    simp only [EMA.update]
    split
    · rfl
    · split <;> rfl
  · intro e y hba
    simp only [EMA.update, if_pos hba]
  · intro e y hab hw
    simp only [EMA.update, if_neg (not_le_of_lt hab), if_pos hw]
  · intro e y hab hw
    have hw' : ¬ (e.wait ≠ 0) := by simp [hw]
    simp only [EMA.update, if_neg (not_le_of_lt hab), if_neg hw']
  · intro a y n h
    exact (EMA.iter_state a y n h).2.1

/-- Witness for C4: concrete instantiations of the amended theorem.  After 6
updates with alpha = 0 the beta in effect is (1/2)^2 (updates 4..7 use 1/4),
and at a zero-wait state beta is halved while at a positive-wait state it is
only decremented. -/
theorem ema_update_spec_C4_witness :
    (EMA.iter 0 0 6).beta = (1 / 2 : ℚ) ^ 2 ∧
    EMA.update ⟨0, 0, 1/2, 1, 1⟩ 0 =
      { value := 0 + (1/2 : ℚ) * (0 - 0), alpha := 0, beta := 1/2,
        wait := 1 - 1, period := 1 } ∧
    EMA.update ⟨0, 0, 1/2, 0, 1⟩ 0 =
      { value := 0 + (1/2 : ℚ) * (0 - 0), alpha := 0,
        beta := if (1/2 : ℚ) * (1/2) < 0 then 0 else (1/2 : ℚ) * (1/2),
        wait := 2 * (1 + 1) - 1, period := 2 * (1 + 1) - 1 } := by
  refine ⟨?_, ?_, ?_⟩
  · have hlog : Nat.log 2 7 = 2 :=
      Nat.log_eq_of_pow_le_of_lt_pow (by norm_num) (by norm_num)
    have := ema_update_spec_C4.2.2.2.2 0 0 6 (by norm_num)
    rw [show (6 : ℕ) + 1 = 7 from rfl, hlog] at this
    exact this
  · exact ema_update_spec_C4.2.2.1 ⟨0, 0, 1/2, 1, 1⟩ 0 (by norm_num) (by norm_num)
  · exact ema_update_spec_C4.2.2.2.1 ⟨0, 0, 1/2, 0, 1⟩ 0 (by norm_num) rfl

/-! ## Restart policy (`restarting`, `reusetrail`, `restart`, `backtrack`) -/

/-- The restart-related members of the statically allocated option struct. -/
structure RestartOpts where
  restart : Bool
  restartmargin : ℚ
  restartdelay : Bool
  restartdelaylim : ℚ
  restartint : ℤ

/-- The pieces of global state read and written by `restarting ()`:
`stats.conflicts`, `limits.restart.conflicts`, `stats.delayed`, the learned
glue EMAs, the jump EMA (only their current `value` is read, through
`operator double`), and the current decision `level`. -/
structure RestartState where
  conflicts : ℤ
  restartLimit : ℤ
  delayed : ℤ
  emaGlueSlow : ℚ
  emaGlueFast : ℚ
  emaJump : ℚ
  level : ℕ

/-- Translation of `restarting ()`: returns the decision together with the
updated state (`limits.restart.conflicts` and `stats.delayed` are written on
the two "return false" paths after the conflict-interval test). -/
def restarting (o : RestartOpts) (s : RestartState) : Bool × RestartState :=
  if o.restart = false then (false, s)
  else if s.conflicts ≤ s.restartLimit then (false, s)
  else
    let slow := s.emaGlueSlow
    let fast := s.emaGlueFast
    let limit := (1 + o.restartmargin) * slow
    if fast < limit then
      (false, { s with restartLimit := s.conflicts + o.restartint })
    else if o.restartdelay = true ∧ (s.level : ℚ) < o.restartdelaylim * s.emaJump then
      (false, { s with restartLimit := s.conflicts + o.restartint,
                       delayed := s.delayed + 1 })
    else (true, s)

/-- C6, counterexample.  A state in which the fast glue EMA EQUALS
(1 + margin) * slow (fast = 2 = (1 + 1) * 1): `restarting ()` returns true
(the code only refuses when `limit > fast`), although the fast EMA does not
EXCEED the limit, as the claim requires for a true result. -/
theorem restarting_counterexample_C6 :
    (restarting ⟨true, 1, false, 0, 10⟩ ⟨11, 10, 0, 1, 2, 0, 3⟩).1 = true ∧
    ¬ ((1 + (1 : ℚ)) * 1 < 2) := by
  constructor
  · simp only [restarting]
    norm_num
  · norm_num

/-- C6 (amended).  `restarting ()` returns true exactly when restarts are
enabled, the conflict count exceeds the current restart conflict limit, the
fast learned-glue EMA is AT LEAST (1 + restartmargin) times the slow
learned-glue EMA (the code forces also at equality), and it is not the case
that restartdelay is enabled with the current decision level below
restartdelaylim times the jump EMA; in that delayed case it returns false,
increments the delayed counter, and resets the restart conflict limit to the
conflict count plus restartint. -/
theorem restarting_spec_C6 (o : RestartOpts) (s : RestartState) :
    ((restarting o s).1 = true ↔
      (o.restart = true ∧ s.restartLimit < s.conflicts ∧
       (1 + o.restartmargin) * s.emaGlueSlow ≤ s.emaGlueFast ∧
       ¬ (o.restartdelay = true ∧
          (s.level : ℚ) < o.restartdelaylim * s.emaJump))) ∧
    ((o.restart = true ∧ s.restartLimit < s.conflicts ∧
      (1 + o.restartmargin) * s.emaGlueSlow ≤ s.emaGlueFast ∧
      o.restartdelay = true ∧ (s.level : ℚ) < o.restartdelaylim * s.emaJump) →
     (restarting o s).1 = false ∧
     (restarting o s).2.delayed = s.delayed + 1 ∧
     (restarting o s).2.restartLimit = s.conflicts + o.restartint) := by
  constructor
  · by_cases h1 : o.restart = false
    · simp [restarting, h1]
    · have hr : o.restart = true := by revert h1; cases o.restart <;> simp
      by_cases h2 : s.conflicts ≤ s.restartLimit
      · simp [restarting, hr, h2, not_lt.mpr h2]
      · by_cases h3 : s.emaGlueFast < (1 + o.restartmargin) * s.emaGlueSlow
        · simp [restarting, hr, h2, h3, not_le.mpr h3]
        · by_cases h4 : o.restartdelay = true ∧
              (s.level : ℚ) < o.restartdelaylim * s.emaJump
          · simp [restarting, hr, h2, h3, h4]
          · simp [restarting, hr, h2, h3, h4, not_le.mp h2, not_lt.mp h3]
  · rintro ⟨hr, hc, hf, hd, hl⟩
    have hnle : ¬ s.conflicts ≤ s.restartLimit := not_le.mpr hc
    have hnlt : ¬ s.emaGlueFast < (1 + o.restartmargin) * s.emaGlueSlow :=
      not_lt.mpr hf
    have hcond : o.restartdelay = true ∧
        (s.level : ℚ) < o.restartdelaylim * s.emaJump := ⟨hd, hl⟩
    simp [restarting, hr, hnle, hnlt, hcond]

/-- Witness for C6: with restarts enabled, 11 conflicts against a limit of
10, slow EMA 1, fast EMA 2, margin 1/2 (so the force threshold 3/2 is
exceeded), delay enabled with level 0 below (1/2) * jump EMA 4: `restarting`
returns false, bumps `delayed` from 7 to 8 and resets the limit to 11+10. -/
theorem restarting_spec_C6_witness :
    (restarting ⟨true, 1/2, true, 1/2, 10⟩ ⟨11, 10, 7, 1, 2, 4, 0⟩).1 = false ∧
    (restarting ⟨true, 1/2, true, 1/2, 10⟩ ⟨11, 10, 7, 1, 2, 4, 0⟩).2.delayed = 7 + 1 ∧
    (restarting ⟨true, 1/2, true, 1/2, 10⟩ ⟨11, 10, 7, 1, 2, 4, 0⟩).2.restartLimit = 11 + 10 :=
  (restarting_spec_C6 ⟨true, 1/2, true, 1/2, 10⟩ ⟨11, 10, 7, 1, 2, 4, 0⟩).2
    (by norm_num)

/-- Translation of `next_decision_variable ()`.  The VMTF queue is doubly
linked through the `prev`/`next` fields of `Var`; the function walks from the
cursor `queue.next` through `prev` links while the variable at hand is
assigned (`val (res = queue.next)` nonzero), moving the cursor along.  The
walk is represented by the list `chain` = queue.next, prev(queue.next), ...
down to the queue's front.  Returns the first unassigned variable, `none`
when every variable of the chain is assigned (the source would then read
past the front of the queue, which reachable states never do). -/
def next_decision_variable (val : ℕ → ℤ) : List ℕ → Option ℕ
  | [] => none
  | v :: rest => if val v ≠ 0 then next_decision_variable val rest else some v

/-- Translation of the loop of `reusetrail ()`:
`while (res < level && var (levels[res + 1].decision).bumped > limit) res++;`
`decisions` is the list `levels[1].decision, ..., levels[level].decision`,
`bumped` gives each variable's VMTF time stamp. -/
def reusetrailLoop (bumped : ℕ → ℤ) (limit : ℤ) : List ℤ → ℕ
  | [] => 0
  | d :: rest =>
    if limit < bumped d.natAbs then reusetrailLoop bumped limit rest + 1 else 0

/-- The trail-related global state: `trail`, the assignment `vals` (by
variable index, at the positive literal), the decision literal of each entry
of `levels` (index 0 is the root pseudo-level `Level (0)`), the current
decision `level`, the BFS cursor `propagate_next`, and the VMTF cursor
`queue.next` (whose movement `unassign` is responsible for). -/
structure TrailState where
  trail : List ℤ
  vals : ℕ → ℤ
  levels : List ℤ
  level : ℕ
  propnext : ℕ
  queueNext : ℕ

/-- Translation of `unassign (int lit)`: clear the value; if the unassigned
variable has a newer stamp than the variable at the VMTF cursor, move the
cursor to it. -/
def unassign (bumped : ℕ → ℤ) (s : TrailState) (lit : ℤ) : TrailState :=
  let idx := lit.natAbs
  let s' := { s with vals := fun j => if j = idx then 0 else s.vals j }
  if bumped s'.queueNext ≥ bumped idx then s' else { s' with queueNext := idx }

/-- The do-while loop of `backtrack`: pop and unassign trail literals until
the popped literal is the decision of level `target_level + 1`.  Structural
recursion on the trail viewed from its back (`rt` is the reversed trail). -/
def backtrackPop (bumped : ℕ → ℤ) (decision : ℤ) (s : TrailState) :
    List ℤ → TrailState
  | [] => s
  | lit :: rest =>
    let s' := { unassign bumped s lit with trail := rest.reverse }
    if lit = decision then s' else backtrackPop bumped decision s' rest

/-- Translation of `backtrack (int target_level)`: a no-op when already at
the target; otherwise pop the trail through the decision of level
`target_level + 1`, clamp `propagate_next` to the new trail length, truncate
the level stack and set the current level. -/
def backtrack (bumped : ℕ → ℤ) (s : TrailState) (target : ℕ) : TrailState :=
  if target = s.level then s
  else
    let decision := s.levels.getD (target + 1) 0
    let s' := backtrackPop bumped decision s s.trail.reverse
    { s' with
      propnext := min s'.propnext s'.trail.length
      levels := s.levels.take (target + 1)
      level := target }

/-- Translation of `reusetrail ()`: 0 when disabled; otherwise the greedy
prefix walk over the decision levels with `limit` the stamp of the next
decision candidate.  Also returns whether `stats.reused` was incremented
(`if (res) stats.reused++`).  `none` models the unreachable situation in
which `next_decision_variable` finds no unassigned variable. -/
def reusetrail (optReuse : Bool) (val bumped : ℕ → ℤ) (chain : List ℕ)
    (s : TrailState) : Option (ℕ × Bool) :=
  if optReuse = false then some (0, false)
  else
    match next_decision_variable val chain with
    | none => none
    | some cand =>
      let r := reusetrailLoop bumped (bumped cand) (s.levels.drop 1)
      some (r, r ≠ 0)

/-- Translation of `restart ()`: bump `stats.restarts`, backtrack to
`reusetrail ()`, reset `limits.restart.conflicts` to
`stats.conflicts + opts.restartint`.  Returns the new trail state, whether
`stats.reused` was incremented, and the new restart limit. -/
def restart (optReuse : Bool) (restartint conflicts : ℤ) (val bumped : ℕ → ℤ)
    (chain : List ℕ) (s : TrailState) : Option (TrailState × Bool × ℤ) :=
  match reusetrail optReuse val bumped chain s with
  | none => none
  | some (r, inc) =>
    some (backtrack bumped s r, inc, conflicts + restartint)

theorem reusetrailLoop_le_length (bumped : ℕ → ℤ) (limit : ℤ) :
    ∀ l : List ℤ, reusetrailLoop bumped limit l ≤ l.length := by
  intro l
  induction l with
  | nil => simp [reusetrailLoop]
  | cons d rest ih =>
    simp only [reusetrailLoop, List.length_cons]
    split
    · omega
    · omega

theorem reusetrailLoop_bumped (bumped : ℕ → ℤ) (limit : ℤ) :
    ∀ l : List ℤ, ∀ i < reusetrailLoop bumped limit l,
      limit < bumped (l.getD i 0).natAbs := by
  intro l
  induction l with
  | nil => simp [reusetrailLoop]
  | cons d rest ih =>
    intro i hi
    simp only [reusetrailLoop] at hi
    by_cases hd : limit < bumped d.natAbs
    · rw [if_pos hd] at hi
      cases i with
      | zero => simpa using hd
      | succ j =>
        simp only [List.getD_cons_succ]
        exact ih j (by omega)
    · rw [if_neg hd] at hi; omega

theorem reusetrailLoop_maximal (bumped : ℕ → ℤ) (limit : ℤ) :
    ∀ l : List ℤ, ∀ r ≤ l.length,
      (∀ i < r, limit < bumped (l.getD i 0).natAbs) →
      r ≤ reusetrailLoop bumped limit l := by
  intro l
  induction l with
  | nil =>
    intro r hr _
    simp only [List.length_nil, Nat.le_zero] at hr
    simp [reusetrailLoop, hr]
  | cons d rest ih =>
    intro r hr hall
    cases r with
    | zero => omega
    | succ r' =>
      have hd : limit < bumped d.natAbs := by simpa using hall 0 (by omega)
      simp only [reusetrailLoop, if_pos hd]
      have : r' ≤ reusetrailLoop bumped limit rest := by
        apply ih r' (by simpa using hr)
        intro i hi
        simpa using hall (i + 1) (by omega)
      omega

theorem next_decision_variable_unassigned (val : ℕ → ℤ) :
    ∀ chain : List ℕ, ∀ cand : ℕ,
      next_decision_variable val chain = some cand → val cand = 0 := by
  intro chain
  induction chain with
  | nil => intro cand h; simp [next_decision_variable] at h
  | cons v rest ih =>
    intro cand h
    simp only [next_decision_variable] at h
    by_cases hv : val v ≠ 0
    · exact ih cand (by rwa [if_pos hv] at h)
    · rw [if_neg hv] at h
      cases h
      exact not_ne_iff.mp hv

/-- C7.  On restart with reusetrail enabled (and the queue walk finding a
next decision candidate `cand`, which is then unassigned), the solver
backtracks to the deepest level r such that the decision literals of every
level 1..r have VMTF stamps strictly greater than the stamp of `cand`
(r = 0 when no such prefix exists), and increments `stats.reused` exactly
when r > 0. -/
theorem restart_reusetrail_spec_C7
    (val bumped : ℕ → ℤ) (chain : List ℕ) (s : TrailState) (cand : ℕ)
    (restartint conflicts : ℤ)
    (hcand : next_decision_variable val chain = some cand)
    (hlen : s.levels.length = s.level + 1) :
    ∃ (r : ℕ) (st' : TrailState) (inc : Bool),
      restart true restartint conflicts val bumped chain s =
        some (st', inc, conflicts + restartint) ∧
      st' = backtrack bumped s r ∧
      st'.level = r ∧
      r ≤ s.level ∧
      val cand = 0 ∧
      (∀ i < r, bumped cand < bumped ((s.levels.getD (i + 1) 0).natAbs)) ∧
      (∀ r' ≤ s.level,
        (∀ i < r', bumped cand < bumped ((s.levels.getD (i + 1) 0).natAbs)) →
        r' ≤ r) ∧
      (inc = true ↔ 0 < r) := by
  have hgd : ∀ i : ℕ, (s.levels.drop 1).getD i 0 = s.levels.getD (i + 1) 0 := by
    intro i
    simp [List.getD_eq_getElem?_getD, List.getElem?_drop, Nat.add_comm]
  have hdl : (s.levels.drop 1).length = s.level := by
    simp [hlen]
  set r := reusetrailLoop bumped (bumped cand) (s.levels.drop 1) with hr
  refine ⟨r, backtrack bumped s r, decide (r ≠ 0), ?_, rfl, ?_, ?_, ?_, ?_, ?_, ?_⟩
  · simp only [restart, reusetrail, hcand, Bool.true_eq_false, if_false,
      Option.some.injEq, Prod.mk.injEq]
  · unfold backtrack
    by_cases hteq : r = s.level
    · rw [if_pos hteq]; exact hteq.symm
    · rw [if_neg hteq]
  · rw [← hdl]; exact reusetrailLoop_le_length bumped (bumped cand) _
  · exact next_decision_variable_unassigned val chain cand hcand
  · intro i hi
    have := reusetrailLoop_bumped bumped (bumped cand) (s.levels.drop 1) i hi
    rwa [hgd i] at this
  · intro r' hr' hall
    apply reusetrailLoop_maximal bumped (bumped cand) (s.levels.drop 1) r'
      (by rwa [hdl])
    intro i hi
    rw [hgd i]
    exact hall i hi
  · simp [decide_eq_true_eq, Nat.pos_iff_ne_zero]

/-- Witness for C7: variables stamped by their index, queue chain [2, 3] with
variable 2 assigned and 3 unassigned (so the candidate is 3, stamp 3), two
decision levels with decisions 5 and -4 (stamps 5 and 4, both above 3): the
restart backtracks to level r = 2 and increments the reused counter. -/
theorem restart_reusetrail_spec_C7_witness :
    ∃ (r : ℕ) (st' : TrailState) (inc : Bool),
      restart true 10 7 (fun v => if v = 3 then 0 else 1) (fun v => (v : ℤ))
        [2, 3] ⟨[], fun _ => 0, [0, 5, -4], 2, 0, 0⟩ = some (st', inc, 7 + 10) ∧
      st' = backtrack (fun v => (v : ℤ)) ⟨[], fun _ => 0, [0, 5, -4], 2, 0, 0⟩ r ∧
      st'.level = r ∧
      r ≤ (⟨[], fun _ => 0, [0, 5, -4], 2, 0, 0⟩ : TrailState).level ∧
      (fun v => if v = 3 then (0 : ℤ) else 1) 3 = 0 ∧
      (∀ i < r, (3 : ℤ) <
        ((([0, 5, -4] : List ℤ).getD (i + 1) 0).natAbs : ℤ)) ∧
      (∀ r' ≤ 2,
        (∀ i < r', (3 : ℤ) <
          ((([0, 5, -4] : List ℤ).getD (i + 1) 0).natAbs : ℤ)) → r' ≤ r) ∧
      (inc = true ↔ 0 < r) :=
  restart_reusetrail_spec_C7 (fun v => if v = 3 then 0 else 1)
    (fun v => (v : ℤ)) [2, 3] ⟨[], fun _ => 0, [0, 5, -4], 2, 0, 0⟩ 3 10 7
    (by rfl) (by rfl)

/-! ## Reduce (`reduce_less_than`, `mark_redundant_clauses`, `flush_watches`) -/

/-- The `struct Clause` record: flags, size, glue (LBD), the conflict index
at which the clause was last resolved, and the literal payload. -/
structure Clause where
  redundant : Bool
  garbage : Bool
  reason : Bool
  size : ℤ
  glue : ℤ
  resolved : ℤ
  lits : List ℤ
deriving DecidableEq, Repr

instance : Inhabited Clause := ⟨⟨false, false, false, 0, 0, 0, []⟩⟩

/-- Translation of `struct reduce_less_than`: resolved ascending, then glue
descending, then size descending. -/
def reduce_less_than (c d : Clause) : Bool :=
  if c.resolved < d.resolved then true
  else if c.resolved > d.resolved then false
  else if c.glue > d.glue then true
  else if c.glue < d.glue then false
  else if c.size > d.size then true
  else if c.size < d.size then false
  else false

/-- The candidate test of the collection loop in `mark_redundant_clauses`:
one `continue` per line of the source (`reason`, `garbage`, `glue <= 2`,
`size <= 3`, `resolved > limits.reduce.resolved`, and — with `reducedynamic`
— glue and size both below the resolved EMAs). -/
def reduce_candidate (dyn : Bool) (emaGlue emaSize : ℚ) (limitResolved : ℤ)
    (c : Clause) : Bool :=
  !c.reason && !c.garbage && (2 < c.glue) && (3 < c.size) &&
    (c.resolved ≤ limitResolved) &&
    !(dyn && ((c.glue : ℚ) < emaGlue) && ((c.size : ℚ) < emaSize))

/-- Translation of `mark_redundant_clauses ()` over the `redundant` stack.
Clause identity (C++ pointers) is modelled by positions: `work` collects the
indices of the candidates, is sorted by `reduce_less_than` on the pointed-to
clauses (`mergeSort` with the complemented swapped comparator realises one
std::sort outcome), and the first half of the sorted candidates is marked
garbage. -/
def mark_redundant_clauses (dyn : Bool) (emaGlue emaSize : ℚ)
    (limitResolved : ℤ) (redundant : List Clause) : List Clause :=
  let work := (List.range redundant.length).filter
    (fun i => reduce_candidate dyn emaGlue emaSize limitResolved
      (redundant.getD i default))
  let sortedW := work.mergeSort
    (fun i j => !reduce_less_than (redundant.getD j default)
      (redundant.getD i default))
  let marked := sortedW.take (sortedW.length / 2)
  redundant.mapIdx (fun i c =>
    if i ∈ marked then { c with garbage := true } else c)

theorem reduce_less_than_iff (c d : Clause) :
    reduce_less_than c d = true ↔
      (c.resolved < d.resolved ∨
       (c.resolved = d.resolved ∧
        (d.glue < c.glue ∨ (c.glue = d.glue ∧ d.size < c.size)))) := by
  unfold reduce_less_than
  split_ifs <;> simp <;> omega

theorem reduce_less_than_asymm (c d : Clause) :
    reduce_less_than c d = true → reduce_less_than d c = false := by
  intro h
  rw [reduce_less_than_iff] at h
  rw [Bool.eq_false_iff, Ne, reduce_less_than_iff]
  omega

theorem reduce_less_than_neg_trans (a b c : Clause) :
    reduce_less_than b a = false → reduce_less_than c b = false →
    reduce_less_than c a = false := by
  intro h1 h2
  rw [Bool.eq_false_iff, Ne, reduce_less_than_iff] at h1 h2 ⊢
  omega

theorem reduce_candidate_iff (dyn : Bool) (eg es : ℚ) (lim : ℤ) (c : Clause) :
    reduce_candidate dyn eg es lim c = true ↔
      (c.reason = false ∧ c.garbage = false ∧ 2 < c.glue ∧ 3 < c.size ∧
       c.resolved ≤ lim ∧
       ¬(dyn = true ∧ (c.glue : ℚ) < eg ∧ (c.size : ℚ) < es)) := by
  unfold reduce_candidate
  cases hr : c.reason <;> cases hg : c.garbage <;> cases hd : dyn <;>
    simp [Bool.and_eq_true, decide_eq_true_eq, and_assoc]
  intro _ _ _
  constructor
  · rintro (h | h) hlt
    · exact absurd hlt (not_lt.mpr h)
    · exact h
  · intro h
    rcases lt_or_le (c.glue : ℚ) eg with hlt | hle
    · exact Or.inr (h hlt)
    · exact Or.inl hle

/-- C2, counterexample.  With `reducedynamic` enabled, resolved-glue EMA 10
and resolved-size EMA 10, a redundant clause with glue 3, size 4, resolved 0
(at most the limit 5), neither a reason nor garbage, satisfies every
condition the claim lists for a deletion candidate — including glue BELOW
the glue EMA and size BELOW the size EMA — yet the code's selection test
rejects it (the code `continue`s, i.e. SPARES, exactly the clauses below
both EMAs), so `mark_redundant_clauses` marks nothing. -/
theorem mark_redundant_counterexample_C2 :
    reduce_candidate true 10 10 5 ⟨true, false, false, 4, 3, 0, []⟩ = false ∧
    (⟨true, false, false, 4, 3, 0, []⟩ : Clause).reason = false ∧
    (⟨true, false, false, 4, 3, 0, []⟩ : Clause).garbage = false ∧
    2 < (⟨true, false, false, 4, 3, 0, []⟩ : Clause).glue ∧
    3 < (⟨true, false, false, 4, 3, 0, []⟩ : Clause).size ∧
    (⟨true, false, false, 4, 3, 0, []⟩ : Clause).resolved ≤ 5 ∧
    ((⟨true, false, false, 4, 3, 0, []⟩ : Clause).glue : ℚ) < 10 ∧
    ((⟨true, false, false, 4, 3, 0, []⟩ : Clause).size : ℚ) < 10 ∧
    mark_redundant_clauses true 10 10 5 [⟨true, false, false, 4, 3, 0, []⟩] =
      [⟨true, false, false, 4, 3, 0, []⟩] := by
  refine ⟨by decide, by decide, by decide, by decide, by decide, by decide,
    by decide, by decide, ?_⟩
  simp [mark_redundant_clauses, List.mapIdx_eq_enum_map, Function.uncurry]
  decide

/-- C2 (amended).  During reduce, the redundant clauses selected as deletion
candidates are exactly those that are not a reason, not already garbage,
have glue > 2, size > 3, resolved at most the recorded resolved limit, and,
when reducedynamic is enabled, NOT both glue below the resolved-glue EMA and
size below the resolved-size EMA (clauses below both EMAs are spared); the
candidates are sorted by resolved ascending, then glue descending, then size
descending, and the first half (rounded down) of the sorted candidates is
marked garbage while every other clause is left unchanged.  `w` below is the
sorted candidate list (by position in the redundant stack). -/
theorem mark_redundant_spec_C2 (dyn : Bool) (emaGlue emaSize : ℚ)
    (lim : ℤ) (rs : List Clause) :
    ∃ w : List ℕ,
      w.Perm ((List.range rs.length).filter
        (fun i => reduce_candidate dyn emaGlue emaSize lim
          (rs.getD i default))) ∧
      (∀ i : ℕ, i ∈ w ↔ i < rs.length ∧
        ((rs.getD i default).reason = false ∧
         (rs.getD i default).garbage = false ∧
         2 < (rs.getD i default).glue ∧
         3 < (rs.getD i default).size ∧
         (rs.getD i default).resolved ≤ lim ∧
         ¬(dyn = true ∧ ((rs.getD i default).glue : ℚ) < emaGlue ∧
           ((rs.getD i default).size : ℚ) < emaSize))) ∧
      w.Pairwise (fun i j =>
        reduce_less_than (rs.getD j default) (rs.getD i default) = false) ∧
      mark_redundant_clauses dyn emaGlue emaSize lim rs =
        rs.mapIdx (fun i c =>
          if i ∈ w.take (w.length / 2) then { c with garbage := true }
          else c) := by
  refine ⟨((List.range rs.length).filter
      (fun i => reduce_candidate dyn emaGlue emaSize lim
        (rs.getD i default))).mergeSort
      (fun i j => !reduce_less_than (rs.getD j default) (rs.getD i default)),
    List.mergeSort_perm _ _, ?_, ?_, rfl⟩
  · intro i
    rw [List.mem_mergeSort, List.mem_filter, List.mem_range,
      reduce_candidate_iff]
  · have htr : ∀ a b c : ℕ,
        (!reduce_less_than (rs.getD b default) (rs.getD a default)) = true →
        (!reduce_less_than (rs.getD c default) (rs.getD b default)) = true →
        (!reduce_less_than (rs.getD c default) (rs.getD a default)) = true := by
      intro a b c hab hbc
      rw [Bool.not_eq_true'] at hab hbc ⊢
      exact reduce_less_than_neg_trans _ _ _ hab hbc
    have hto : ∀ a b : ℕ,
        ((!reduce_less_than (rs.getD b default) (rs.getD a default)) ||
         (!reduce_less_than (rs.getD a default) (rs.getD b default))) =
          true := by
      intro a b
      rw [Bool.or_eq_true, Bool.not_eq_true', Bool.not_eq_true']
      by_cases hab : reduce_less_than (rs.getD b default)
          (rs.getD a default) = true
      · exact Or.inr (reduce_less_than_asymm _ _ hab)
      · exact Or.inl (by simpa using hab)
    have hs := List.sorted_mergeSort htr hto
      ((List.range rs.length).filter
        (fun i => reduce_candidate dyn emaGlue emaSize lim
          (rs.getD i default)))
    exact hs.imp (fun h => by rwa [Bool.not_eq_true'] at h)

/-- A `struct Watch`: blocking literal, cached clause size, and the watched
clause (the C++ pointer is modelled by the clause record itself; `flush`
only ever reads its `garbage` flag). -/
structure Watch where
  blit : ℤ
  size : ℤ
  clause : Clause
deriving DecidableEq, Repr

/-- Translation of `fixed (int lit)`: the value `vals[vidx (lit)]`, zeroed
when the variable was assigned above the root level (`vars[idx].level` is
nonzero), negated for a negative literal. -/
def fixedVal (vals : ℕ → ℤ) (vlevel : ℕ → ℕ) (lit : ℤ) : ℤ :=
  if lit < 0 then
    -(if vals lit.natAbs ≠ 0 ∧ vlevel lit.natAbs ≠ 0 then 0
      else vals lit.natAbs)
  else
    (if vals lit.natAbs ≠ 0 ∧ vlevel lit.natAbs ≠ 0 then 0
     else vals lit.natAbs)

/-- The in-place compaction loop of `flush_watches` over one watch list:
`while (i < size) { Watch w = ws[j++] = ws[i++]; if (w.clause->garbage) j--; }
ws.resize (j);`. -/
def flushLoop : List Watch → List Watch
  | [] => []
  | w :: ws => if w.clause.garbage then flushLoop ws else w :: flushLoop ws

/-- Translation of `flush_watches ()` as a function on the watch map (the
array `all_literal_watches`, indexed by literal): for each variable index
1..max_var, if `fixed (idx)` is nonzero both polarities get a fresh empty
`Watches ()`, otherwise each polarity's list is compacted by dropping the
watches of garbage clauses.  Literals outside 1..max_var are untouched. -/
def flush_watches (maxVar : ℕ) (vals : ℕ → ℤ) (vlevel : ℕ → ℕ)
    (wm : ℤ → List Watch) : ℤ → List Watch :=
  fun lit =>
    if 1 ≤ lit.natAbs ∧ lit.natAbs ≤ maxVar then
      if fixedVal vals vlevel (lit.natAbs : ℤ) ≠ 0 then []
      else flushLoop (wm lit)
    else wm lit

theorem flushLoop_eq_filter (ws : List Watch) :
    flushLoop ws = ws.filter (fun w => !w.clause.garbage) := by
  induction ws with
  | nil => rfl
  | cons w ws ih =>
    by_cases hg : w.clause.garbage
    · simp [flushLoop, List.filter, hg, ih]
    · simp [flushLoop, List.filter, hg, ih]

/-- C10.  After reduce's `flush_watches`, the watch lists of both polarities
of every root-fixed variable (assigned with `vars[idx].level == 0`) are
empty — regardless of the clauses in them, garbage or not — while for every
other literal exactly the watches of garbage clauses are dropped and the
remaining watches keep their order (the result is the garbage-free filter of
the old list, a sublist of it). -/
theorem flush_watches_spec_C10 (maxVar : ℕ) (vals : ℕ → ℤ)
    (vlevel : ℕ → ℕ) (wm : ℤ → List Watch) :
    (∀ idx : ℕ, 1 ≤ idx → idx ≤ maxVar → vals idx ≠ 0 → vlevel idx = 0 →
      flush_watches maxVar vals vlevel wm (idx : ℤ) = [] ∧
      flush_watches maxVar vals vlevel wm (-(idx : ℤ)) = []) ∧
    (∀ lit : ℤ, 1 ≤ lit.natAbs → lit.natAbs ≤ maxVar →
      (vals lit.natAbs = 0 ∨ vlevel lit.natAbs ≠ 0) →
      flush_watches maxVar vals vlevel wm lit =
        (wm lit).filter (fun w => !w.clause.garbage) ∧
      (flush_watches maxVar vals vlevel wm lit).Sublist (wm lit)) := by
  constructor
  · intro idx h1 h2 hv hl
    have hna : (idx : ℤ).natAbs = idx := Int.natAbs_ofNat idx
    have hnn : (-(idx : ℤ)).natAbs = idx := by simp
    have hcond : ¬ (vals idx ≠ 0 ∧ vlevel idx ≠ 0) := by simp [hl]
    have hfix : fixedVal vals vlevel (idx : ℤ) ≠ 0 := by
      unfold fixedVal
      rw [if_neg (by omega : ¬ ((idx : ℤ) < 0)), hna, if_neg hcond]
      exact hv
    constructor
    · unfold flush_watches
      rw [hna, if_pos ⟨h1, h2⟩, if_pos hfix]
    · unfold flush_watches
      rw [hnn, if_pos ⟨h1, h2⟩, if_pos hfix]
  · intro lit h1 h2 hfree
    have hfix : fixedVal vals vlevel (lit.natAbs : ℤ) = 0 := by
      unfold fixedVal
      rw [if_neg (by omega : ¬ ((lit.natAbs : ℤ) < 0)), Int.natAbs_ofNat]
      rcases hfree with hv | hl
      · rw [if_neg (by simp [hv])]
        exact hv
      · by_cases hv : vals lit.natAbs = 0
        · rw [if_neg (by simp [hv])]
          exact hv
        · rw [if_pos ⟨hv, hl⟩]
    have hflush : flush_watches maxVar vals vlevel wm lit =
        flushLoop (wm lit) := by
      unfold flush_watches
      rw [if_pos ⟨h1, h2⟩, if_neg (not_ne_iff.mpr hfix)]
    rw [hflush, flushLoop_eq_filter]
    exact ⟨rfl, List.filter_sublist _⟩

/-! ## Clause normalization at parse time (`lit_less_than`, `tautological`) -/

/-- Translation of `struct lit_less_than`: by variable index first, then by
value, so that a negative literal precedes its positive complement. -/
def lit_less_than (a b : ℤ) : Bool :=
  a.natAbs < b.natAbs || (a.natAbs == b.natAbs && a < b)

/-- The scan loop of `tautological ()`, translated verbatim:
`prev` is initialized to 0 and — as in the source, where no statement ever
assigns it again — NEVER updated inside the loop; `acc` accumulates the
compacted prefix `clause[0..j)`.  On the early `return true` the caller
(`parse_dimacs`) discards the clause immediately, so the payload returned
there (kept prefix plus unscanned suffix) is never read. -/
def tautLoop (prev : ℤ) (acc : List ℤ) : List ℤ → Bool × List ℤ
  | [] => (false, acc.reverse)
  | l :: ls =>
    if l = -prev then (true, acc.reverse ++ l :: ls)
    else tautLoop prev (if l ≠ prev then l :: acc else acc) ls

/-- Translation of `tautological ()`: sort the temporary clause by
`lit_less_than` (std::sort realised by `mergeSort` on the complemented
swapped comparator), then run the duplicate/complement scan.  Returns the
flag together with the final contents of the `clause` vector. -/
def tautological (clause : List ℤ) : Bool × List ℤ :=
  let sorted := clause.mergeSort (fun a b => !lit_less_than b a)
  tautLoop 0 [] sorted

/-- C9 / code bug.  `tautological` never updates `prev` inside its scan loop
(the source lacks the `prev = lit` assignment), so `lit == -prev` compares
with 0 forever and `lit != prev` always holds for the nonzero literals of a
clause: the tautology [1, -1] is NOT detected (the function returns false
and the clause keeps both complementary literals), and the duplicate in
[1, 1] is NOT removed.  Under the specification — tautological clauses are
discarded, duplicate literals are deduplicated, and a false return yields a
sorted duplicate-free clause — the first application on [1, -1] must return
true and on [1, 1] must yield [1]. -/
theorem tautological_code_bug_C9 :
    tautological [1, -1] = (false, [-1, 1]) ∧
    tautological [1, 1] = (false, [1, 1]) ∧
    tautological [-1, 1] = (false, [-1, 1]) := by
  refine ⟨?_, ?_, ?_⟩ <;>
    simp [tautological, List.mergeSort, lit_less_than, tautLoop]

/-! ## Propagation of one watch over a long clause (`propagate`, size > 2) -/

/-- `swap (lits[i], lits[j])` on the literal array. -/
def swapL (l : List ℤ) (i j : ℕ) : List ℤ :=
  (l.set i (l.getD j 0)).set j (l.getD i 0)

theorem swapL_length (l : List ℤ) (i j : ℕ) :
    (swapL l i j).length = l.length := by
  simp [swapL]

theorem swapL_getD_right (l : List ℤ) (i j : ℕ) (hj : j < l.length) :
    (swapL l i j).getD j 0 = l.getD i 0 := by
  simp [swapL, List.getD_eq_getElem?_getD, List.getElem?_set, hj]

theorem swapL_getD_left (l : List ℤ) (i j : ℕ) (hij : i ≠ j)
    (hi : i < l.length) :
    (swapL l i j).getD i 0 = l.getD j 0 := by
  simp [swapL, List.getD_eq_getElem?_getD, List.getElem?_set,
    hij, Ne.symm hij, hi]

theorem swapL_getD_other (l : List ℤ) (i j m : ℕ) (hmi : i ≠ m)
    (hmj : j ≠ m) :
    (swapL l i j).getD m 0 = l.getD m 0 := by
  simp [swapL, List.getD_eq_getElem?_getD, List.getElem?_set, hmi, hmj]

/-- The inner scan of `propagate` for a clause of cached size > 2:
`for (k = 2; k < w.size && (v = val (lits[k])) < 0; k++) ;` — started with
k = 2 and v = 0, returns the final values of `k` and `v`. -/
def scanLoop (val : ℤ → ℤ) (lits : List ℤ) (size k : ℕ) (v : ℤ) : ℕ × ℤ :=
  if k < size then
    let v' := val (lits.getD k 0)
    if v' < 0 then scanLoop val lits size (k + 1) v' else (k, v')
  else (k, v)
termination_by size - k
decreasing_by omega

theorem scanLoop_found (val : ℤ → ℤ) (lits : List ℤ) (size k₀ : ℕ)
    (hk₀ : k₀ < size) (h0 : 0 ≤ val (lits.getD k₀ 0)) :
    ∀ d k : ℕ, ∀ v : ℤ, k₀ - k = d → k ≤ k₀ →
      (∀ j, k ≤ j → j < k₀ → val (lits.getD j 0) < 0) →
      scanLoop val lits size k v = (k₀, val (lits.getD k₀ 0)) := by
  intro d
  induction d with
  | zero =>
    intro k v hd hk _
    have hkk : k = k₀ := by omega
    subst hkk
    rw [scanLoop, if_pos hk₀, if_neg (not_lt.mpr h0)]
  | succ d ih =>
    intro k v hd hk hmin
    have hklt : k < k₀ := by omega
    have hneg : val (lits.getD k 0) < 0 := hmin k (le_refl k) hklt
    rw [scanLoop, if_pos (by omega : k < size), if_pos hneg]
    exact ih (k + 1) _ (by omega) (by omega)
      (fun j hj hj' => hmin j (by omega) hj')

theorem scanLoop_missing (val : ℤ → ℤ) (lits : List ℤ) (size : ℕ) :
    ∀ d k : ℕ, ∀ v : ℤ, size - k = d → k ≤ size →
      (∀ j, k ≤ j → j < size → val (lits.getD j 0) < 0) →
      (k < size ∨ v < 0) →
      ∃ v' : ℤ, v' < 0 ∧ scanLoop val lits size k v = (size, v') := by
  intro d
  induction d with
  | zero =>
    intro k v hd hk hall hor
    have hkk : k = size := by omega
    subst hkk
    rcases hor with h | h
    · omega
    · exact ⟨v, h, by rw [scanLoop, if_neg (by omega)]⟩
  | succ d ih =>
    intro k v hd hk hall hor
    have hklt : k < size := by omega
    have hneg : val (lits.getD k 0) < 0 := hall k (le_refl k) hklt
    rw [scanLoop, if_pos hklt, if_pos hneg]
    exact ih (k + 1) _ (by omega) (by omega)
      (fun j hj hj' => hall j (by omega) hj') (Or.inr hneg)

/-- The outcome of visiting one watch of `-lit` whose blocking literal is
not true and whose cached size exceeds 2 (the `else` branch of `propagate`'s
inner loop, after `assert (w.clause->size == w.size)`). -/
inductive VisitAction where
  | keepWatch (newBlit : ℤ)
  | migrate (watchLit blit : ℤ)
  | assignLit (l : ℤ)
  | conflictFound
deriving DecidableEq, Repr

/-- Translation of the size-> 2 branch of `propagate`'s watch visit:
position the clause so that `lits[1] == -lit`; if `lits[0]` is true refresh
the blocking literal to it; otherwise scan `lits[2..]` — a true literal
refreshes the blocking literal, an unassigned one is swapped into slot 1 and
the watch migrates onto it (`watch_literal (lits[1], -lit, w.clause); j--`),
and if the scan fails the clause either propagates `lits[0]` (when
unassigned) or is the conflict.  Returns the clause's literal array after
the visit together with the action taken. -/
def propagateVisitLarge (val : ℤ → ℤ) (lit : ℤ) (size : ℕ)
    (lits : List ℤ) : List ℤ × VisitAction :=
  let lits1 := if lits.getD 1 0 ≠ -lit then swapL lits 0 1 else lits
  let u := val (lits1.getD 0 0)
  if 0 < u then (lits1, .keepWatch (lits1.getD 0 0))
  else
    let kv := scanLoop val lits1 size 2 0
    if 0 < kv.2 then (lits1, .keepWatch (lits1.getD kv.1 0))
    else if kv.2 = 0 then
      (swapL lits1 1 kv.1, .migrate (lits1.getD kv.1 0) (-lit))
    else if u = 0 then (lits1, .assignLit (lits1.getD 0 0))
    else (lits1, .conflictFound)

/-- C5.  While propagating L, for every visited watch of -L whose blocking
literal is not true and whose cached size exceeds 2: the clause is
positioned so that literal slot 1 holds -L (slots 2.. untouched); if slot 0
is true the watch is kept with its blocking literal refreshed to slot 0;
otherwise slots 2 onward are scanned for the first non-false literal — if a
true one is found the blocking literal is refreshed to it; if an unassigned
one is found it is swapped into slot 1 and the watch migrates onto it (a new
watch with blocking literal -L, the current one dropped); if none is found
and slot 0 is unassigned, slot 0 is assigned with this clause as reason; and
otherwise the clause is recorded as the conflict. -/
theorem propagate_visit_spec_C5 (val : ℤ → ℤ) (lit : ℤ) (size : ℕ)
    (lits : List ℤ) (hsize : lits.length = size) (h2 : 2 < size)
    (hin : lits.getD 0 0 = -lit ∨ lits.getD 1 0 = -lit) :
    ∃ lits1 : List ℤ,
      (lits1 = if lits.getD 1 0 ≠ -lit then swapL lits 0 1 else lits) ∧
      lits1.getD 1 0 = -lit ∧
      lits1.length = size ∧
      (∀ k, 2 ≤ k → lits1.getD k 0 = lits.getD k 0) ∧
      (0 < val (lits1.getD 0 0) →
        propagateVisitLarge val lit size lits =
          (lits1, VisitAction.keepWatch (lits1.getD 0 0))) ∧
      (val (lits1.getD 0 0) ≤ 0 →
        (∀ k₀, 2 ≤ k₀ → k₀ < size →
          (∀ j, 2 ≤ j → j < k₀ → val (lits1.getD j 0) < 0) →
          (0 < val (lits1.getD k₀ 0) →
            propagateVisitLarge val lit size lits =
              (lits1, VisitAction.keepWatch (lits1.getD k₀ 0))) ∧
          (val (lits1.getD k₀ 0) = 0 →
            propagateVisitLarge val lit size lits =
              (swapL lits1 1 k₀,
               VisitAction.migrate (lits1.getD k₀ 0) (-lit)) ∧
            (swapL lits1 1 k₀).getD 1 0 = lits1.getD k₀ 0)) ∧
        ((∀ j, 2 ≤ j → j < size → val (lits1.getD j 0) < 0) →
          (val (lits1.getD 0 0) = 0 →
            propagateVisitLarge val lit size lits =
              (lits1, VisitAction.assignLit (lits1.getD 0 0))) ∧
          (val (lits1.getD 0 0) < 0 →
            propagateVisitLarge val lit size lits =
              (lits1, VisitAction.conflictFound)))) := by
  set L1 := (if lits.getD 1 0 ≠ -lit then swapL lits 0 1 else lits) with hL1
  have hlen3 : 3 ≤ lits.length := by omega
  have h1 : L1.getD 1 0 = -lit := by
    rw [hL1]
    by_cases hl : lits.getD 1 0 ≠ -lit
    · rw [if_pos hl, swapL_getD_right lits 0 1 (by omega)]
      rcases hin with h | h
      · exact h
      · exact absurd h hl
    · rw [if_neg hl]
      exact not_ne_iff.mp hl
  have hlen1 : L1.length = size := by
    rw [hL1]
    by_cases hl : lits.getD 1 0 ≠ -lit
    · rw [if_pos hl, swapL_length, hsize]
    · rw [if_neg hl, hsize]
  have hk2 : ∀ k, 2 ≤ k → L1.getD k 0 = lits.getD k 0 := by
    intro k hk
    rw [hL1]
    by_cases hl : lits.getD 1 0 ≠ -lit
    · rw [if_pos hl, swapL_getD_other lits 0 1 k (by omega) (by omega)]
    · rw [if_neg hl]
  refine ⟨L1, hL1, h1, hlen1, hk2, ?_, ?_⟩
  · intro hu
    simp only [propagateVisitLarge]
    rw [← hL1, if_pos hu]
  · intro hu
    constructor
    · intro k₀ hk₀2 hk₀lt hmin
      constructor
      · intro hv
        have hscan : scanLoop val L1 size 2 0 = (k₀, val (L1.getD k₀ 0)) :=
          scanLoop_found val L1 size k₀ hk₀lt (le_of_lt hv) (k₀ - 2) 2 0
            rfl (by omega) (fun j hj hj' => hmin j hj hj')
        simp only [propagateVisitLarge]
        rw [← hL1, if_neg (not_lt.mpr hu), hscan]
        rw [if_pos hv]
      · intro hv
        have hscan : scanLoop val L1 size 2 0 = (k₀, val (L1.getD k₀ 0)) :=
          scanLoop_found val L1 size k₀ hk₀lt (le_of_eq hv.symm) (k₀ - 2) 2 0
            rfl (by omega) (fun j hj hj' => hmin j hj hj')
        constructor
        · simp only [propagateVisitLarge]
          rw [← hL1, if_neg (not_lt.mpr hu), hscan]
          rw [if_neg (by rw [hv]; omega : ¬ (0 : ℤ) < val (L1.getD k₀ 0)),
            if_pos hv]
        · exact swapL_getD_left L1 1 k₀ (by omega) (by omega)
    · intro hall
      obtain ⟨v', hv', heq⟩ :=
        scanLoop_missing val L1 size (size - 2) 2 0 rfl (by omega)
          (fun j hj hj' => hall j hj hj') (Or.inl (by omega))
      constructor
      · intro hu0
        simp only [propagateVisitLarge]
        rw [← hL1, if_neg (not_lt.mpr hu), heq]
        rw [if_neg (by omega : ¬ (0 : ℤ) < v'),
          if_neg (by omega : ¬ v' = 0), if_pos hu0]
      · intro hult
        simp only [propagateVisitLarge]
        rw [← hL1, if_neg (not_lt.mpr hu), heq]
        rw [if_neg (by omega : ¬ (0 : ℤ) < v'),
          if_neg (by omega : ¬ v' = 0),
          if_neg (by omega : ¬ val (L1.getD 0 0) = 0)]

/-- Witness for C5 at a concrete visit: propagating L = 1 into the clause
[5, -1, 7] (so -L = -1 sits in slot 1 already) of size 3 under the
assignment val(5) = 1, val otherwise 0. -/
theorem propagate_visit_spec_C5_witness :
    ∃ lits1 : List ℤ,
      (lits1 = if ([5, -1, 7] : List ℤ).getD 1 0 ≠ -1 then
        swapL [5, -1, 7] 0 1 else [5, -1, 7]) ∧
      lits1.getD 1 0 = -1 ∧
      lits1.length = 3 ∧
      (∀ k, 2 ≤ k → lits1.getD k 0 = ([5, -1, 7] : List ℤ).getD k 0) ∧
      (0 < (fun l : ℤ => if l = 5 then (1 : ℤ) else 0) (lits1.getD 0 0) →
        propagateVisitLarge (fun l : ℤ => if l = 5 then (1 : ℤ) else 0) 1 3
            [5, -1, 7] =
          (lits1, VisitAction.keepWatch (lits1.getD 0 0))) ∧
      ((fun l : ℤ => if l = 5 then (1 : ℤ) else 0) (lits1.getD 0 0) ≤ 0 →
        (∀ k₀, 2 ≤ k₀ → k₀ < 3 →
          (∀ j, 2 ≤ j → j < k₀ →
            (fun l : ℤ => if l = 5 then (1 : ℤ) else 0) (lits1.getD j 0) < 0) →
          (0 < (fun l : ℤ => if l = 5 then (1 : ℤ) else 0) (lits1.getD k₀ 0) →
            propagateVisitLarge (fun l : ℤ => if l = 5 then (1 : ℤ) else 0)
                1 3 [5, -1, 7] =
              (lits1, VisitAction.keepWatch (lits1.getD k₀ 0))) ∧
          ((fun l : ℤ => if l = 5 then (1 : ℤ) else 0) (lits1.getD k₀ 0) = 0 →
            propagateVisitLarge (fun l : ℤ => if l = 5 then (1 : ℤ) else 0)
                1 3 [5, -1, 7] =
              (swapL lits1 1 k₀,
               VisitAction.migrate (lits1.getD k₀ 0) (-1)) ∧
            (swapL lits1 1 k₀).getD 1 0 = lits1.getD k₀ 0)) ∧
        ((∀ j, 2 ≤ j → j < 3 →
            (fun l : ℤ => if l = 5 then (1 : ℤ) else 0) (lits1.getD j 0) < 0) →
          ((fun l : ℤ => if l = 5 then (1 : ℤ) else 0) (lits1.getD 0 0) = 0 →
            propagateVisitLarge (fun l : ℤ => if l = 5 then (1 : ℤ) else 0)
                1 3 [5, -1, 7] =
              (lits1, VisitAction.assignLit (lits1.getD 0 0))) ∧
          ((fun l : ℤ => if l = 5 then (1 : ℤ) else 0) (lits1.getD 0 0) < 0 →
            propagateVisitLarge (fun l : ℤ => if l = 5 then (1 : ℤ) else 0)
                1 3 [5, -1, 7] =
              (lits1, VisitAction.conflictFound)))) :=
  propagate_visit_spec_C5 (fun l : ℤ => if l = 5 then (1 : ℤ) else 0) 1 3
    [5, -1, 7] rfl (by omega) (Or.inr rfl)

/-! ## Conflict analysis (`analyze_literal`, `analyze`)

The analyzer's transient per-variable `seen` flags are modelled by
membership of the variable in `seen.literals`; the per-level counters
`levels[l].seen` only feed the "push `l` to `seen.levels` on first touch"
test, which is equivalent to membership of `l` in `seen.levels` (counters
are zero between analyses; each analyzed literal increments its level's
counter and pushes the level exactly when the counter was zero). -/

/-- The working state of one conflict analysis: `seen.literals`,
`seen.levels` and the temporary `clause`. -/
structure AState where
  seenL : List ℤ
  seenLev : List ℕ
  cls : List ℤ
deriving Repr

/-- `var (lit).seen` for a variable index: some seen literal has it as its
variable. -/
def seenVar (s : AState) (v : ℕ) : Bool :=
  s.seenL.any (fun l => l.natAbs == v)

/-- Translation of `analyze_literal (int lit)`: ignore seen variables and
root-level literals; push to the temporary clause when assigned below the
current level; record a first-seen level; mark seen; report whether the
literal sits on the current level. -/
def analyze_literal (lev : ℕ → ℕ) (curLevel : ℕ) (s : AState) (lit : ℤ) :
    AState × Bool :=
  if seenVar s lit.natAbs then (s, false)
  else if lev lit.natAbs = 0 then (s, false)
  else
    ({ seenL := s.seenL ++ [lit]
       seenLev := if lev lit.natAbs ∈ s.seenLev then s.seenLev
                  else s.seenLev ++ [lev lit.natAbs]
       cls := if lev lit.natAbs < curLevel then s.cls ++ [lit] else s.cls },
     decide (lev lit.natAbs = curLevel))

/-- The reason-processing loop of `analyze`:
`for (int j = 0; j < reason->size; j++) if (analyze_literal (...)) open++;`
threading the state and the `open` counter. -/
def processReason (lev : ℕ → ℕ) (curLevel : ℕ) :
    AState → ℤ → List ℤ → AState × ℤ
  | s, opn, [] => (s, opn)
  | s, opn, l :: ls =>
    let sb := analyze_literal lev curLevel s l
    processReason lev curLevel sb.1 (if sb.2 then opn + 1 else opn) ls

/-- The UIP scan `while (!var (uip = trail[--i]).seen) ;` — from position
`i` downwards, the topmost trail position whose variable is seen (`none`
models running off the bottom of the trail, unreachable in well-formed
states). -/
def findSeen (trail : List ℤ) (s : AState) : ℕ → Option ℕ
  | 0 => none
  | i + 1 =>
    if seenVar s (trail.getD i 0).natAbs then some i else findSeen trail s i

/-- The resolution loop of `analyze`, with explicit fuel (the theorems show
`trail.length + 1` suffices): process the current reason, scan down for the
next seen literal `uip`, stop when `--open` hits zero, otherwise continue
with `var (uip).reason`. -/
def analyzeLoop (lev : ℕ → ℕ) (curLevel : ℕ) (reasonOf : ℕ → List ℤ)
    (trail : List ℤ) :
    ℕ → List ℤ → ℕ → ℤ → AState → Option (ℤ × AState)
  | 0, _, _, _, _ => none
  | fuel + 1, reason, i, opn, s =>
    let so := processReason lev curLevel s opn reason
    match findSeen trail so.1 i with
    | none => none
    | some i' =>
      if so.2 - 1 = 0 then some (trail.getD i' 0, so.1)
      else
        analyzeLoop lev curLevel reasonOf trail fuel
          (reasonOf (trail.getD i' 0).natAbs) i' (so.2 - 1) so.1

/-- What `analyze ()` produces past the loop (for a conflict at level > 0):
whether a unit was learned, the final literal order of the learned clause,
the recorded glue, the backjump level passed to `backtrack`, the asserted
literal `-uip`, and the reason attached to it by `assign` (the driving
clause, absent for a unit). -/
structure AnalyzeResult where
  isUnit : Bool
  learned : List ℤ
  glue : ℕ
  jump : ℕ
  asserted : ℤ
  driving : Option (List ℤ)
deriving Repr

/-- Translation of `analyze ()` for a conflict at decision level > 0: run
the resolution loop from the conflict clause, append `-uip`, record glue =
`seen.levels.size ()`; a size-1 clause is a learned unit (jump 0, no
reason); otherwise sort by `level_greater_than` (std::sort realised by
`mergeSort` on the complemented swapped comparator, i.e. level descending),
take the backjump level from position 1, and drive with the sorted clause. -/
def analyze (lev : ℕ → ℕ) (curLevel : ℕ) (reasonOf : ℕ → List ℤ)
    (trail : List ℤ) (conflictC : List ℤ) : Option AnalyzeResult :=
  match analyzeLoop lev curLevel reasonOf trail (trail.length + 1) conflictC
      trail.length 0 ⟨[], [], []⟩ with
  | none => none
  | some us =>
    let cls1 := us.2.cls ++ [-us.1]
    let glue := us.2.seenLev.length
    if cls1.length = 1 then some ⟨true, cls1, glue, 0, -us.1, none⟩
    else
      let sorted := cls1.mergeSort
        (fun a b => decide (lev b.natAbs ≤ lev a.natAbs))
      some ⟨false, sorted, glue, lev (sorted.getD 1 0).natAbs, -us.1,
        some sorted⟩

/-- The number of trail positions below `i` holding a seen variable of the
current decision level — the quantity tracked by `open`. -/
def cntCur (lev : ℕ → ℕ) (curLevel : ℕ) (trail : List ℤ) (s : AState) :
    ℕ → ℕ
  | 0 => 0
  | i + 1 =>
    cntCur lev curLevel trail s i +
      (if seenVar s (trail.getD i 0).natAbs = true ∧
          lev (trail.getD i 0).natAbs = curLevel then 1 else 0)

/-- The analysis-state invariant: every seen literal is a nonroot trail
literal at level ≤ the current one; the temporary clause holds exactly the
seen literals below the current level, in seen order; `seen.levels` is
duplicate-free and holds exactly the levels of the seen literals. -/
def AInv (lev : ℕ → ℕ) (curLevel : ℕ) (trail : List ℤ) (s : AState) : Prop :=
  (∀ l ∈ s.seenL, 0 < lev l.natAbs ∧ lev l.natAbs ≤ curLevel ∧
     l.natAbs ∈ trail.map (fun t => t.natAbs)) ∧
  s.cls = s.seenL.filter (fun l => decide (lev l.natAbs < curLevel)) ∧
  s.seenLev.Nodup ∧
  (∀ x : ℕ, x ∈ s.seenLev ↔ ∃ l ∈ s.seenL, lev l.natAbs = x)

theorem seenVar_mono (s s' : AState) (t : List ℤ) (v : ℕ)
    (hL : s'.seenL = s.seenL ++ t) (h : seenVar s v = true) :
    seenVar s' v = true := by
  simp only [seenVar, hL, List.any_append, Bool.or_eq_true]
  exact Or.inl h

theorem seenVar_append_self (s s' : AState) (l : ℤ)
    (hL : s'.seenL = s.seenL ++ [l]) :
    seenVar s' l.natAbs = true := by
  simp [seenVar, hL, List.any_append]

theorem seenVar_append_ne (s s' : AState) (l : ℤ) (v : ℕ)
    (hL : s'.seenL = s.seenL ++ [l]) (hne : l.natAbs ≠ v) :
    seenVar s' v = seenVar s v := by
  simp [seenVar, hL, List.any_append, hne]

theorem cntCur_congr (lev : ℕ → ℕ) (curLevel : ℕ) (trail : List ℤ)
    (s s' : AState)
    (h : ∀ v : ℕ, seenVar s' v = seenVar s v) :
    ∀ i, cntCur lev curLevel trail s' i = cntCur lev curLevel trail s i := by
  intro i
  induction i with
  | zero => rfl
  | succ i ih => simp [cntCur, ih, h]

theorem cntCur_empty (lev : ℕ → ℕ) (curLevel : ℕ) (trail : List ℤ)
    (slev : List ℕ) (cls : List ℤ) :
    ∀ i, cntCur lev curLevel trail ⟨[], slev, cls⟩ i = 0 := by
  intro i
  induction i with
  | zero => rfl
  | succ i ih => simp [cntCur, ih, seenVar]

theorem cntCur_append_of_ne (lev : ℕ → ℕ) (curLevel : ℕ) (trail : List ℤ)
    (s s' : AState) (l : ℤ) (hL : s'.seenL = s.seenL ++ [l])
    (hlev : lev l.natAbs ≠ curLevel) :
    ∀ i, cntCur lev curLevel trail s' i = cntCur lev curLevel trail s i := by
  intro i
  induction i with
  | zero => rfl
  | succ i ih =>
    simp only [cntCur, ih]
    congr 1
    by_cases hv : l.natAbs = (trail.getD i 0).natAbs
    · rw [← hv]
      simp [hlev]
    · rw [seenVar_append_ne s s' l _ hL hv]

theorem cntCur_append_of_cur (lev : ℕ → ℕ) (curLevel : ℕ) (trail : List ℤ)
    (Hnd : (trail.map (fun t => t.natAbs)).Nodup)
    (s s' : AState) (l : ℤ) (hL : s'.seenL = s.seenL ++ [l])
    (hnew : seenVar s l.natAbs = false)
    (hlev : lev l.natAbs = curLevel)
    (p : ℕ) (hp : p < trail.length)
    (hvp : (trail.getD p 0).natAbs = l.natAbs) :
    ∀ i, i ≤ trail.length →
      cntCur lev curLevel trail s' i =
        cntCur lev curLevel trail s i + (if p < i then 1 else 0) := by
  intro i
  induction i with
  | zero => simp [cntCur]
  | succ i ih =>
    intro hi
    have ih' := ih (by omega)
    by_cases hv : (trail.getD i 0).natAbs = l.natAbs
    · -- this position holds the fresh variable, so it is position p
      have hleni : i < (trail.map (fun t => t.natAbs)).length := by
        simp only [List.length_map]; omega
      have hlenp : p < (trail.map (fun t => t.natAbs)).length := by
        simp only [List.length_map]; omega
      have hip : i = p := by
        have hgi : trail.getD i 0 = trail[i] :=
          List.getD_eq_getElem trail 0 (by omega)
        have hgp : trail.getD p 0 = trail[p] :=
          List.getD_eq_getElem trail 0 hp
        have hmi : (trail.map (fun t => t.natAbs))[i] =
            (trail.map (fun t => t.natAbs))[p] := by
          rw [List.getElem_map, List.getElem_map, ← hgi, ← hgp, hv, hvp]
        exact (List.Nodup.getElem_inj_iff Hnd).mp hmi
      have hs' : seenVar s' (trail.getD i 0).natAbs = true := by
        rw [hv]
        exact seenVar_append_self s s' l hL
      have hs0 : seenVar s (trail.getD i 0).natAbs = false := by
        rw [hv]
        exact hnew
      simp only [cntCur, ih', hs0, hs', hv, ← hip]
      simp [hlev, seenVar_append_self s s' l hL, hnew]
    · -- another variable: the indicator is unchanged
      simp only [cntCur, ih', seenVar_append_ne s s' l _ hL
        (fun h => hv h.symm)]
      have hpi : ¬ p = i := by
        intro hpe
        apply hv
        rw [← hpe, hvp]
      by_cases hplt : p < i
      · rw [if_pos hplt, if_pos (show p < i + 1 by omega)]
        omega
      · rw [if_neg hplt, if_neg (show ¬ p < i + 1 by omega)]
        omega

theorem cntCur_pos (lev : ℕ → ℕ) (curLevel : ℕ) (trail : List ℤ)
    (s : AState) :
    ∀ i, 0 < cntCur lev curLevel trail s i →
      ∃ k, k < i ∧ seenVar s (trail.getD k 0).natAbs = true ∧
        lev (trail.getD k 0).natAbs = curLevel := by
  intro i
  induction i with
  | zero => simp [cntCur]
  | succ i ih =>
    intro hpos
    simp only [cntCur] at hpos
    by_cases hind : seenVar s (trail.getD i 0).natAbs = true ∧
        lev (trail.getD i 0).natAbs = curLevel
    · exact ⟨i, by omega, hind.1, hind.2⟩
    · rw [if_neg hind] at hpos
      obtain ⟨k, hk, h1, h2⟩ := ih (by omega)
      exact ⟨k, by omega, h1, h2⟩

theorem cntCur_pos_of (lev : ℕ → ℕ) (curLevel : ℕ) (trail : List ℤ)
    (s : AState) :
    ∀ i p, p < i → seenVar s (trail.getD p 0).natAbs = true →
      lev (trail.getD p 0).natAbs = curLevel →
      0 < cntCur lev curLevel trail s i := by
  intro i
  induction i with
  | zero => omega
  | succ i ih =>
    intro p hp hseen hlev
    simp only [cntCur]
    by_cases hpi : p = i
    · subst hpi
      rw [if_pos ⟨hseen, hlev⟩]
      omega
    · have := ih p (by omega) hseen hlev
      omega

theorem cntCur_drop (lev : ℕ → ℕ) (curLevel : ℕ) (trail : List ℤ)
    (s : AState) :
    ∀ i i', i' < i →
      (∀ k, i' < k → k < i → seenVar s (trail.getD k 0).natAbs = false) →
      seenVar s (trail.getD i' 0).natAbs = true →
      lev (trail.getD i' 0).natAbs = curLevel →
      cntCur lev curLevel trail s i = cntCur lev curLevel trail s i' + 1 := by
  intro i
  induction i with
  | zero => omega
  | succ i ih =>
    intro i' hlt hnone hseen hlev
    by_cases hii : i' = i
    · subst hii
      simp only [cntCur]
      rw [if_pos ⟨hseen, hlev⟩]
    · have hi'i : i' < i := by omega
      simp only [cntCur]
      rw [if_neg (fun hc =>
        (Bool.eq_false_iff.mp (hnone i (by omega) (by omega))) hc.1)]
      rw [ih i' hi'i (fun k h1 h2 => hnone k h1 (by omega)) hseen hlev]

theorem findSeen_spec (trail : List ℤ) (s : AState) :
    ∀ i, (∃ k, k < i ∧ seenVar s (trail.getD k 0).natAbs = true) →
      ∃ i', findSeen trail s i = some i' ∧ i' < i ∧
        seenVar s (trail.getD i' 0).natAbs = true ∧
        ∀ k, i' < k → k < i → seenVar s (trail.getD k 0).natAbs = false := by
  intro i
  induction i with
  | zero => rintro ⟨k, hk, _⟩; omega
  | succ i ih =>
    rintro ⟨k, hk, hseen⟩
    by_cases htop : seenVar s (trail.getD i 0).natAbs = true
    · refine ⟨i, ?_, by omega, htop, ?_⟩
      · rw [findSeen, if_pos htop]
      · intro j h1 h2
        omega
    · have hk' : k < i := by
        rcases Nat.lt_succ_iff_lt_or_eq.mp hk with h | h
        · exact h
        · subst h; exact absurd hseen htop
      obtain ⟨i', heq, hlt, hs, hnone⟩ := ih ⟨k, hk', hseen⟩
      refine ⟨i', ?_, by omega, hs, ?_⟩
      · rw [findSeen, if_neg htop, heq]
      · intro j h1 h2
        by_cases hji : j = i
        · subst hji
          exact Bool.eq_false_iff.mpr htop
        · exact hnone j h1 (by omega)

theorem analyze_literal_spec (lev : ℕ → ℕ) (curLevel : ℕ) (trail : List ℤ)
    (Hlev : ∀ l ∈ trail, lev l.natAbs ≤ curLevel)
    (Hnd : (trail.map (fun t => t.natAbs)).Nodup)
    (i : ℕ) (hi : i ≤ trail.length)
    (s : AState) (q : ℤ)
    (hinv : AInv lev curLevel trail s)
    (hq : seenVar s q.natAbs = true ∨
      (q ≠ 0 ∧ ∃ p, p < i ∧ (trail.getD p 0).natAbs = q.natAbs)) :
    AInv lev curLevel trail (analyze_literal lev curLevel s q).1 ∧
    (∃ t, (analyze_literal lev curLevel s q).1.seenL = s.seenL ++ t) ∧
    cntCur lev curLevel trail (analyze_literal lev curLevel s q).1 i =
      cntCur lev curLevel trail s i +
        (if (analyze_literal lev curLevel s q).2 then 1 else 0) ∧
    (lev q.natAbs ≠ 0 → seenVar (analyze_literal lev curLevel s q).1 q.natAbs = true) := by
  by_cases hseen : seenVar s q.natAbs = true
  · rw [show analyze_literal lev curLevel s q = (s, false) from by
      unfold analyze_literal; rw [if_pos hseen]]
    exact ⟨hinv, ⟨[], by simp⟩, by simp, fun _ => hseen⟩
  · by_cases hroot : lev q.natAbs = 0
    · rw [show analyze_literal lev curLevel s q = (s, false) from by
        unfold analyze_literal
        rw [if_neg hseen, if_pos hroot]]
      exact ⟨hinv, ⟨[], by simp⟩, by simp, fun h => absurd hroot h⟩
    · -- fresh literal: it is marked, possibly collected, possibly counted
      rcases hq with hq | ⟨hq0, p, hpi, hvp⟩
      · exact absurd hq hseen
      have heq : analyze_literal lev curLevel s q =
          ({ seenL := s.seenL ++ [q]
             seenLev := if lev q.natAbs ∈ s.seenLev then s.seenLev
                        else s.seenLev ++ [lev q.natAbs]
             cls := if lev q.natAbs < curLevel then s.cls ++ [q]
                    else s.cls },
           decide (lev q.natAbs = curLevel)) := by
        unfold analyze_literal
        rw [if_neg hseen, if_neg hroot]
      obtain ⟨inv1, inv2, inv3, inv4⟩ := hinv
      have hplen : p < trail.length := by omega
      have hmemtrail : trail.getD p 0 ∈ trail := by
        rw [List.getD_eq_getElem trail 0 hplen]
        exact List.getElem_mem hplen
      have hqmem : q.natAbs ∈ trail.map (fun t => t.natAbs) := by
        rw [← hvp]
        exact List.mem_map_of_mem _ hmemtrail
      have hqle : lev q.natAbs ≤ curLevel := by
        rw [← hvp]
        exact Hlev _ hmemtrail
      rw [heq]
      refine ⟨⟨?_, ?_, ?_, ?_⟩, ⟨[q], rfl⟩, ?_, ?_⟩
      · intro l hl
        rcases List.mem_append.mp hl with h | h
        · exact inv1 l h
        · rw [List.mem_singleton.mp h]
          exact ⟨Nat.pos_of_ne_zero hroot, hqle, hqmem⟩
      · simp only [List.filter_append]
        rw [inv2]
        by_cases hlt : lev q.natAbs < curLevel
        · rw [if_pos hlt]
          simp [hlt]
        · rw [if_neg hlt]
          simp [hlt]
      · by_cases hmem : lev q.natAbs ∈ s.seenLev
        · rw [if_pos hmem]; exact inv3
        · rw [if_neg hmem]
          simp [List.nodup_append, inv3, hmem]
      · intro x
        by_cases hmem : lev q.natAbs ∈ s.seenLev
        · rw [if_pos hmem]
          rw [inv4 x]
          constructor
          · rintro ⟨l, hl, hx⟩
            exact ⟨l, List.mem_append_left _ hl, hx⟩
          · rintro ⟨l, hl, hx⟩
            rcases List.mem_append.mp hl with h | h
            · exact ⟨l, h, hx⟩
            · rw [List.mem_singleton.mp h] at hx
              exact (inv4 x).mp (hx ▸ hmem)
        · rw [if_neg hmem]
          constructor
          · intro hx
            rcases List.mem_append.mp hx with h | h
            · obtain ⟨l, hl, hlx⟩ := (inv4 x).mp h
              exact ⟨l, List.mem_append_left _ hl, hlx⟩
            · exact ⟨q, List.mem_append_right _ (List.mem_singleton_self q),
                (List.mem_singleton.mp h).symm⟩
          · rintro ⟨l, hl, hx⟩
            rcases List.mem_append.mp hl with h | h
            · exact List.mem_append_left _ ((inv4 x).mpr ⟨l, h, hx⟩)
            · rw [List.mem_singleton.mp h] at hx
              rw [← hx]
              exact List.mem_append_right _ (List.mem_singleton_self _)
      · by_cases hcur : lev q.natAbs = curLevel
        · rw [cntCur_append_of_cur lev curLevel trail Hnd s _ q rfl
            (Bool.eq_false_iff.mpr hseen) hcur p hplen hvp i hi]
          simp [hcur, hpi]
        · rw [cntCur_append_of_ne lev curLevel trail s _ q rfl hcur]
          simp [hcur]
      · intro _
        exact seenVar_append_self s _ q rfl

theorem processReason_spec (lev : ℕ → ℕ) (curLevel : ℕ) (trail : List ℤ)
    (Hlev : ∀ l ∈ trail, lev l.natAbs ≤ curLevel)
    (Hnd : (trail.map (fun t => t.natAbs)).Nodup)
    (i : ℕ) (hi : i ≤ trail.length) :
    ∀ (reason : List ℤ) (s : AState) (opn : ℤ),
      AInv lev curLevel trail s →
      opn = cntCur lev curLevel trail s i →
      (∀ q ∈ reason, seenVar s q.natAbs = true ∨
        (q ≠ 0 ∧ ∃ p, p < i ∧ (trail.getD p 0).natAbs = q.natAbs)) →
      AInv lev curLevel trail (processReason lev curLevel s opn reason).1 ∧
      (processReason lev curLevel s opn reason).2 =
        cntCur lev curLevel trail (processReason lev curLevel s opn reason).1 i ∧
      (∃ t, (processReason lev curLevel s opn reason).1.seenL = s.seenL ++ t) ∧
      opn ≤ (processReason lev curLevel s opn reason).2 ∧
      (∀ q ∈ reason, lev q.natAbs ≠ 0 →
        seenVar (processReason lev curLevel s opn reason).1 q.natAbs = true) := by
  intro reason
  induction reason with
  | nil =>
    intro s opn hinv hopn _
    exact ⟨hinv, by simpa [processReason] using hopn,
      ⟨[], by simp [processReason]⟩, le_refl _, by simp⟩
  | cons q rest ih =>
    intro s opn hinv hopn hpre
    obtain ⟨inv', ⟨t₁, hext₁⟩, hcnt, hseenq⟩ :=
      analyze_literal_spec lev curLevel trail Hlev Hnd i hi s q hinv
        (hpre q (List.mem_cons_self q rest))
    have hpre' : ∀ r ∈ rest,
        seenVar (analyze_literal lev curLevel s q).1 r.natAbs = true ∨
        (r ≠ 0 ∧ ∃ p, p < i ∧ (trail.getD p 0).natAbs = r.natAbs) := by
      intro r hr
      rcases hpre r (List.mem_cons_of_mem q hr) with h | h
      · exact Or.inl (seenVar_mono s _ t₁ _ hext₁ h)
      · exact Or.inr h
    have hopn' :
        (if (analyze_literal lev curLevel s q).2 then opn + 1 else opn) =
          cntCur lev curLevel trail (analyze_literal lev curLevel s q).1 i := by
      by_cases hb : (analyze_literal lev curLevel s q).2
      · rw [if_pos hb] at hcnt
        rw [if_pos hb, hcnt]
        omega
      · rw [if_neg hb] at hcnt
        rw [if_neg hb, hcnt]
        omega
    obtain ⟨jinv, jcnt, ⟨t₂, hext₂⟩, jle, jseen⟩ :=
      ih (analyze_literal lev curLevel s q).1
        (if (analyze_literal lev curLevel s q).2 then opn + 1 else opn)
        inv' hopn' hpre'
    have hstep : processReason lev curLevel s opn (q :: rest) =
        processReason lev curLevel (analyze_literal lev curLevel s q).1
          (if (analyze_literal lev curLevel s q).2 then opn + 1 else opn)
          rest := rfl
    rw [hstep]
    refine ⟨jinv, jcnt, ⟨t₁ ++ t₂, by rw [hext₂, hext₁, List.append_assoc]⟩,
      ?_, ?_⟩
    · calc opn ≤ (if (analyze_literal lev curLevel s q).2 then opn + 1
          else opn) := by
            by_cases hb : (analyze_literal lev curLevel s q).2
            · rw [if_pos hb]; omega
            · rw [if_neg hb]
        _ ≤ _ := jle
    · intro r hr hlr
      rcases List.mem_cons.mp hr with h | h
      · subst h
        exact seenVar_mono _ _ t₂ _ hext₂ (hseenq hlr)
      · exact jseen r h hlr

theorem uip_level (lev : ℕ → ℕ) (curLevel : ℕ) (trail : List ℤ)
    (Hmono : List.Pairwise (fun a b => lev a.natAbs ≤ lev b.natAbs) trail)
    (Hlev : ∀ l ∈ trail, lev l.natAbs ≤ curLevel)
    (p i' : ℕ) (hp : p ≤ i') (hi' : i' < trail.length)
    (hplev : lev (trail.getD p 0).natAbs = curLevel) :
    lev (trail.getD i' 0).natAbs = curLevel := by
  rcases eq_or_lt_of_le hp with heq | hlt
  · rw [← heq]; exact hplev
  · have hple : p < trail.length := by omega
    have hgp : trail.getD p 0 = trail[p] := List.getD_eq_getElem trail 0 hple
    have hgi : trail.getD i' 0 = trail[i'] := List.getD_eq_getElem trail 0 hi'
    have hpair := List.pairwise_iff_getElem.mp Hmono p i' hple hi' hlt
    have hle : lev (trail.getD i' 0).natAbs ≤ curLevel := by
      rw [hgi]
      exact Hlev _ (List.getElem_mem hi')
    rw [hgp] at hplev
    rw [hgi]
    rw [hgi] at hle
    omega

theorem analyzeLoop_spec (lev : ℕ → ℕ) (curLevel : ℕ)
    (reasonOf : ℕ → List ℤ) (trail : List ℤ)
    (Hcur : 0 < curLevel)
    (Hlev : ∀ l ∈ trail, lev l.natAbs ≤ curLevel)
    (Hnz : ∀ l ∈ trail, l ≠ 0)
    (Hnd : (trail.map (fun t => t.natAbs)).Nodup)
    (Hmono : List.Pairwise (fun a b => lev a.natAbs ≤ lev b.natAbs) trail)
    (Hreason : ∀ k, k < trail.length →
      ∀ q ∈ reasonOf ((trail.getD k 0).natAbs), q ≠ 0 ∧
        q.natAbs ∈ ((trail.take (k + 1)).map (fun t => t.natAbs))) :
    ∀ fuel : ℕ, ∀ i : ℕ, i + 1 ≤ fuel → i ≤ trail.length →
    ∀ (reason : List ℤ) (s : AState) (opn : ℤ),
      AInv lev curLevel trail s →
      opn = cntCur lev curLevel trail s i →
      (∀ q ∈ reason, seenVar s q.natAbs = true ∨
        (q ≠ 0 ∧ ∃ p, p < i ∧ (trail.getD p 0).natAbs = q.natAbs)) →
      (0 < opn ∨ (∃ q ∈ reason, lev q.natAbs = curLevel ∧
        seenVar s q.natAbs = false ∧
        ∃ p, p < i ∧ (trail.getD p 0).natAbs = q.natAbs)) →
      ∃ uip s',
        analyzeLoop lev curLevel reasonOf trail fuel reason i opn s =
          some (uip, s') ∧
        AInv lev curLevel trail s' ∧
        seenVar s' uip.natAbs = true ∧
        lev uip.natAbs = curLevel ∧
        uip ≠ 0 := by
  intro fuel
  induction fuel with
  | zero => intro i hfuel; omega
  | succ fuel ih =>
    intro i hfuel hi reason s opn hinv hopn hpre hstart
    obtain ⟨pinv, pcnt, ⟨t, pext⟩, ple, pseen⟩ :=
      processReason_spec lev curLevel trail Hlev Hnd i hi reason s opn
        hinv hopn hpre
    -- open is positive after processing the current reason
    have hpos : 0 < (processReason lev curLevel s opn reason).2 := by
      rcases hstart with h | ⟨q, hqm, hqcur, hqunseen, p, hpi, hvp⟩
      · omega
      · have hq0 : lev q.natAbs ≠ 0 := by omega
        have hseenq := pseen q hqm hq0
        have hseenp : seenVar (processReason lev curLevel s opn reason).1
            (trail.getD p 0).natAbs = true := by
          rw [hvp]; exact hseenq
        have hcurp : lev (trail.getD p 0).natAbs = curLevel := by
          rw [hvp]; exact hqcur
        have := cntCur_pos_of lev curLevel trail
          (processReason lev curLevel s opn reason).1 i p hpi hseenp hcurp
        omega
    have hcntpos : 0 < cntCur lev curLevel trail
        (processReason lev curLevel s opn reason).1 i := by omega
    obtain ⟨k, hk, hkseen, hkcur⟩ :=
      cntCur_pos lev curLevel trail _ i hcntpos
    obtain ⟨i', heq, hi'lt, hi'seen, htop⟩ :=
      findSeen_spec trail _ i ⟨k, hk, hkseen⟩
    have hki' : k ≤ i' := by
      by_contra hcon
      have := htop k (by omega) hk
      rw [this] at hkseen
      exact absurd hkseen (by simp)
    have hi'len : i' < trail.length := by omega
    have hlevuip : lev (trail.getD i' 0).natAbs = curLevel :=
      uip_level lev curLevel trail Hmono Hlev k i' hki' hi'len hkcur
    have huipmem : trail.getD i' 0 ∈ trail := by
      rw [List.getD_eq_getElem trail 0 hi'len]
      exact List.getElem_mem hi'len
    have huipnz : trail.getD i' 0 ≠ 0 := Hnz _ huipmem
    by_cases hz : (processReason lev curLevel s opn reason).2 - 1 = 0
    · refine ⟨trail.getD i' 0, (processReason lev curLevel s opn reason).1,
        ?_, pinv, hi'seen, hlevuip, huipnz⟩
      simp only [analyzeLoop, heq, if_pos hz]
    · -- continue resolving with the reason of the found literal
      have hcntdrop := cntCur_drop lev curLevel trail
        (processReason lev curLevel s opn reason).1 i i' hi'lt htop
        hi'seen hlevuip
      have hpre' : ∀ q ∈ reasonOf ((trail.getD i' 0).natAbs),
          seenVar (processReason lev curLevel s opn reason).1 q.natAbs = true ∨
          (q ≠ 0 ∧ ∃ p, p < i' ∧ (trail.getD p 0).natAbs = q.natAbs) := by
        intro q hq
        obtain ⟨hq0, hqmem⟩ := Hreason i' hi'len q hq
        obtain ⟨t', ht'mem, ht'v⟩ := List.mem_map.mp hqmem
        obtain ⟨j, hjlen, hjget⟩ := List.getElem_of_mem ht'mem
        have hjlt : j < i' + 1 := by
          have := hjlen
          rw [List.length_take] at this
          omega
        have hjtr : j < trail.length := by
          have := hjlen
          rw [List.length_take] at this
          omega
        have hjval : trail.getD j 0 = t' := by
          rw [List.getD_eq_getElem trail 0 hjtr, ← hjget,
            List.getElem_take]
        by_cases hji : j = i'
        · left
          have : (trail.getD i' 0).natAbs = q.natAbs := by
            rw [← hji, hjval, ht'v]
          rw [← this]
          exact hi'seen
        · right
          exact ⟨hq0, j, by omega, by rw [hjval, ht'v]⟩
      obtain ⟨uip', s'', hrec, hinv'', hseen'', hlev'', hnz''⟩ :=
        ih i' (by omega) (by omega)
          (reasonOf ((trail.getD i' 0).natAbs))
          (processReason lev curLevel s opn reason).1
          ((processReason lev curLevel s opn reason).2 - 1)
          pinv (by omega) hpre' (Or.inl (by omega))
      refine ⟨uip', s'', ?_, hinv'', hseen'', hlev'', hnz''⟩
      simp only [analyzeLoop, heq, if_neg hz]
      exact hrec

theorem sorted_desc_head (f : ℤ → ℕ) (l : List ℤ) (x : ℤ)
    (hmem : x ∈ l) (hmax : ∀ y ∈ l, y ≠ x → f y < f x)
    (hsorted : List.Pairwise (fun a b => f b ≤ f a) l) :
    l.getD 0 0 = x := by
  cases l with
  | nil => cases hmem
  | cons a t =>
    by_cases hax : a = x
    · simpa using hax
    · exfalso
      have hxt : x ∈ t := by
        rcases List.mem_cons.mp hmem with h | h
        · exact absurd h.symm hax
        · exact h
      have h1 : f x ≤ f a := (List.pairwise_cons.mp hsorted).1 x hxt
      have h2 : f a < f x := hmax a (List.mem_cons_self a t) hax
      omega

theorem sorted_desc_second (f : ℤ → ℕ) (a b : ℤ) (t : List ℤ)
    (hsorted : List.Pairwise (fun x y => f y ≤ f x) (a :: b :: t)) :
    ∀ k, 1 ≤ k → k < (a :: b :: t).length →
      f ((a :: b :: t).getD k 0) ≤ f b := by
  have hpb : ∀ y ∈ t, f y ≤ f b :=
    (List.pairwise_cons.mp (List.pairwise_cons.mp hsorted).2).1
  intro k h1 h2
  cases k with
  | zero => omega
  | succ j =>
    cases j with
    | zero => simp
    | succ j' =>
      have hjt : j' < t.length := by
        simp only [List.length_cons] at h2
        omega
      rw [List.getD_cons_succ, List.getD_cons_succ]
      apply hpb
      rw [List.getD_eq_getElem t 0 hjt]
      exact List.getElem_mem hjt

theorem seenLev_glue (lev : ℕ → ℕ) (curLevel : ℕ) (trail : List ℤ)
    (s : AState) (uip : ℤ)
    (hinv : AInv lev curLevel trail s)
    (hseen : seenVar s uip.natAbs = true)
    (hlev : lev uip.natAbs = curLevel) :
    s.seenLev.length =
      ((s.cls ++ [-uip]).map (fun l => lev l.natAbs)).toFinset.card := by
  obtain ⟨inv1, inv2, inv3, inv4⟩ := hinv
  obtain ⟨l0, hl0, hl0v⟩ := List.any_eq_true.mp hseen
  have hl0abs : l0.natAbs = uip.natAbs := by simpa using hl0v
  have hext : ∀ x : ℕ, x ∈ s.seenLev ↔
      x ∈ (s.cls ++ [-uip]).map (fun l => lev l.natAbs) := by
    intro x
    rw [inv4]
    constructor
    · rintro ⟨l, hl, hx⟩
      obtain ⟨hpos, hle, _⟩ := inv1 l hl
      rcases lt_or_eq_of_le hle with hlt | hcur
      · refine List.mem_map.mpr ⟨l, List.mem_append_left _ ?_, hx⟩
        rw [inv2]
        exact List.mem_filter.mpr ⟨hl, by simpa using hlt⟩
      · refine List.mem_map.mpr ⟨-uip, List.mem_append_right _
          (List.mem_singleton_self _), ?_⟩
        rw [Int.natAbs_neg, hlev, ← hcur, hx]
    · intro hx
      obtain ⟨l, hl, hx⟩ := List.mem_map.mp hx
      rcases List.mem_append.mp hl with h | h
      · have hmem : l ∈ s.seenL := by
          rw [inv2] at h
          exact (List.mem_filter.mp h).1
        exact ⟨l, hmem, hx⟩
      · rw [List.mem_singleton.mp h] at hx
        rw [Int.natAbs_neg] at hx
        refine ⟨l0, hl0, ?_⟩
        rw [hl0abs, hx]
  have hfs : s.seenLev.toFinset =
      ((s.cls ++ [-uip]).map (fun l => lev l.natAbs)).toFinset := by
    apply Finset.ext
    intro x
    simp only [List.mem_toFinset]
    exact hext x
  rw [← List.toFinset_card_of_nodup inv3, hfs]

theorem mem_vars_to_pos (trail : List ℤ) (v : ℕ)
    (h : v ∈ trail.map (fun t => t.natAbs)) :
    ∃ p, p < trail.length ∧ (trail.getD p 0).natAbs = v := by
  obtain ⟨t', ht', htv⟩ := List.mem_map.mp h
  obtain ⟨j, hj, hjget⟩ := List.getElem_of_mem ht'
  exact ⟨j, hj, by rw [List.getD_eq_getElem trail 0 hj, hjget, htv]⟩

/-- C3.  For a conflict at decision level > 0 in a well-formed solver state
(trail levels bounded by the current level and nondecreasing, distinct
variables on the trail, reason clauses made of variables assigned no later
than their propagated literal, the conflict clause over trail variables with
at least one literal of the current level), `analyze` produces: an asserted
literal -uip at the current level; either a learned unit (clause [-uip],
backjump to level 0, no reason attached) or a new redundant clause of size
≥ 2, sorted by level descending, whose position 0 holds the asserting
literal -uip and whose position 1 holds a literal of the second-deepest
level among the learned literals (every later literal's level is at most
position 1's, which lies strictly below the current level); the backjump
level handed to `backtrack` is the level of the literal at position 1 and
the clause is attached as the reason of the asserted literal; and the
recorded glue equals the number of distinct decision levels among the
learned literals. -/
theorem analyze_spec_C3 (lev : ℕ → ℕ) (curLevel : ℕ)
    (reasonOf : ℕ → List ℤ) (trail : List ℤ) (conflictC : List ℤ)
    (Hcur : 0 < curLevel)
    (Hlev : ∀ l ∈ trail, lev l.natAbs ≤ curLevel)
    (Hnz : ∀ l ∈ trail, l ≠ 0)
    (Hnd : (trail.map (fun t => t.natAbs)).Nodup)
    (Hmono : List.Pairwise (fun a b => lev a.natAbs ≤ lev b.natAbs) trail)
    (Hreason : ∀ k, k < trail.length →
      ∀ q ∈ reasonOf ((trail.getD k 0).natAbs), q ≠ 0 ∧
        q.natAbs ∈ ((trail.take (k + 1)).map (fun t => t.natAbs)))
    (Hconf : ∀ q ∈ conflictC, q ≠ 0 ∧
      q.natAbs ∈ trail.map (fun t => t.natAbs))
    (Hconfcur : ∃ q ∈ conflictC, lev q.natAbs = curLevel) :
    ∃ res : AnalyzeResult,
      analyze lev curLevel reasonOf trail conflictC = some res ∧
      lev res.asserted.natAbs = curLevel ∧
      res.asserted ≠ 0 ∧
      (res.isUnit = true →
        res.learned = [res.asserted] ∧ res.jump = 0 ∧ res.driving = none) ∧
      (res.isUnit = false →
        2 ≤ res.learned.length ∧
        res.learned.getD 0 0 = res.asserted ∧
        res.driving = some res.learned ∧
        res.jump = lev (res.learned.getD 1 0).natAbs ∧
        List.Pairwise (fun a b => lev b.natAbs ≤ lev a.natAbs) res.learned ∧
        lev (res.learned.getD 1 0).natAbs < curLevel ∧
        (∀ k, 1 ≤ k → k < res.learned.length →
          lev (res.learned.getD k 0).natAbs ≤
            lev (res.learned.getD 1 0).natAbs) ∧
        (∀ l ∈ res.learned, 0 < lev l.natAbs ∧ lev l.natAbs ≤ curLevel)) ∧
      res.glue =
        ((res.learned.map (fun l => lev l.natAbs)).toFinset).card := by
  have hinv0 : AInv lev curLevel trail ⟨[], [], []⟩ := by
    refine ⟨by simp, by simp, by simp, by simp⟩
  have hpre0 : ∀ q ∈ conflictC, seenVar ⟨[], [], []⟩ q.natAbs = true ∨
      (q ≠ 0 ∧ ∃ p, p < trail.length ∧ (trail.getD p 0).natAbs = q.natAbs) := by
    intro q hq
    right
    obtain ⟨h0, hmem⟩ := Hconf q hq
    exact ⟨h0, mem_vars_to_pos trail _ hmem⟩
  have hstart0 : (0 : ℤ) < 0 ∨ (∃ q ∈ conflictC, lev q.natAbs = curLevel ∧
      seenVar ⟨[], [], []⟩ q.natAbs = false ∧
      ∃ p, p < trail.length ∧ (trail.getD p 0).natAbs = q.natAbs) := by
    right
    obtain ⟨q, hq, hqcur⟩ := Hconfcur
    obtain ⟨h0, hmem⟩ := Hconf q hq
    exact ⟨q, hq, hqcur, rfl, mem_vars_to_pos trail _ hmem⟩
  obtain ⟨uip, s', hloop, hinv', hseenuip, hlevuip, hnzuip⟩ :=
    analyzeLoop_spec lev curLevel reasonOf trail Hcur Hlev Hnz Hnd Hmono
      Hreason (trail.length + 1) trail.length (le_refl _) (le_refl _)
      conflictC ⟨[], [], []⟩ 0 hinv0 (by simp [cntCur_empty]) hpre0 hstart0
  have hglue := seenLev_glue lev curLevel trail s' uip hinv' hseenuip hlevuip
  obtain ⟨inv1, inv2, inv3, inv4⟩ := hinv'
  have hclsfacts : ∀ l ∈ s'.cls, 0 < lev l.natAbs ∧
      lev l.natAbs < curLevel := by
    intro l hl
    rw [inv2] at hl
    obtain ⟨hmem, hdec⟩ := List.mem_filter.mp hl
    exact ⟨(inv1 l hmem).1, by simpa using hdec⟩
  have hnegabs : (-uip).natAbs = uip.natAbs := Int.natAbs_neg uip
  have hlevneg : lev (-uip).natAbs = curLevel := by
    rw [hnegabs]; exact hlevuip
  have hnegnz : -uip ≠ 0 := neg_ne_zero.mpr hnzuip
  by_cases hunit : (s'.cls ++ [-uip]).length = 1
  · -- a learned unit clause
    have hclsnil : s'.cls = [] := by
      rw [List.length_append, List.length_singleton] at hunit
      exact List.length_eq_zero.mp (by omega)
    refine ⟨⟨true, s'.cls ++ [-uip], s'.seenLev.length, 0, -uip, none⟩,
      ?_, hlevneg, hnegnz, ?_, ?_, ?_⟩
    · simp only [analyze, hloop]
      rw [if_pos hunit]
    · intro _
      refine ⟨?_, rfl, rfl⟩
      rw [hclsnil]
      rfl
    · intro h
      exact absurd h (by simp)
    · exact hglue
  · -- a learned clause of size at least two, sorted by level descending
    have hclslen : 1 ≤ s'.cls.length := by
      rw [List.length_append, List.length_singleton] at hunit
      by_contra hcon
      exact hunit (by omega)
    have hlen2 : 2 ≤ (s'.cls ++ [-uip]).length := by
      rw [List.length_append, List.length_singleton]
      omega
    have htrans : ∀ a b c : ℤ,
        decide (lev b.natAbs ≤ lev a.natAbs) = true →
        decide (lev c.natAbs ≤ lev b.natAbs) = true →
        decide (lev c.natAbs ≤ lev a.natAbs) = true := by
      intro a b c hab hbc
      simp only [decide_eq_true_eq] at hab hbc ⊢
      omega
    have htotal : ∀ a b : ℤ,
        (decide (lev b.natAbs ≤ lev a.natAbs) ||
         decide (lev a.natAbs ≤ lev b.natAbs)) = true := by
      intro a b
      simp only [Bool.or_eq_true, decide_eq_true_eq]
      omega
    have hperm : ((s'.cls ++ [-uip]).mergeSort
        (fun a b => decide (lev b.natAbs ≤ lev a.natAbs))).Perm
        (s'.cls ++ [-uip]) := List.mergeSort_perm _ _
    have hpw : List.Pairwise (fun a b => lev b.natAbs ≤ lev a.natAbs)
        ((s'.cls ++ [-uip]).mergeSort
          (fun a b => decide (lev b.natAbs ≤ lev a.natAbs))) := by
      have := List.sorted_mergeSort htrans htotal (s'.cls ++ [-uip])
      exact this.imp (fun h => by simpa using h)
    have hsortlen : 2 ≤ ((s'.cls ++ [-uip]).mergeSort
        (fun a b => decide (lev b.natAbs ≤ lev a.natAbs))).length := by
      rw [hperm.length_eq]
      exact hlen2
    have hmemneg : -uip ∈ (s'.cls ++ [-uip]).mergeSort
        (fun a b => decide (lev b.natAbs ≤ lev a.natAbs)) := by
      rw [hperm.mem_iff]
      exact List.mem_append_right _ (List.mem_singleton_self _)
    have hmax : ∀ y ∈ (s'.cls ++ [-uip]).mergeSort
        (fun a b => decide (lev b.natAbs ≤ lev a.natAbs)),
        y ≠ -uip → lev y.natAbs < lev (-uip).natAbs := by
      intro y hy hyne
      rw [hlevneg]
      rcases List.mem_append.mp (hperm.mem_iff.mp hy) with h | h
      · exact (hclsfacts y h).2
      · exact absurd (List.mem_singleton.mp h) hyne
    have hhead : ((s'.cls ++ [-uip]).mergeSort
        (fun a b => decide (lev b.natAbs ≤ lev a.natAbs))).getD 0 0 =
        -uip :=
      sorted_desc_head (fun l => lev l.natAbs) _ (-uip) hmemneg hmax hpw
    refine ⟨⟨false,
        (s'.cls ++ [-uip]).mergeSort
          (fun a b => decide (lev b.natAbs ≤ lev a.natAbs)),
        s'.seenLev.length,
        lev (((s'.cls ++ [-uip]).mergeSort
          (fun a b => decide (lev b.natAbs ≤ lev a.natAbs))).getD 1 0).natAbs,
        -uip,
        some ((s'.cls ++ [-uip]).mergeSort
          (fun a b => decide (lev b.natAbs ≤ lev a.natAbs)))⟩,
      ?_, hlevneg, hnegnz, ?_, ?_, ?_⟩
    · simp only [analyze, hloop]
      rw [if_neg hunit]
    · intro h
      exact absurd h (by simp)
    · intro _
      refine ⟨hsortlen, hhead, rfl, rfl, hpw, ?_, ?_, ?_⟩
      · -- the literal at position 1 lies strictly below the current level
        obtain ⟨a, rest, ha⟩ := List.exists_cons_of_ne_nil
          (List.ne_nil_of_length_pos (by omega :
            0 < ((s'.cls ++ [-uip]).mergeSort
              (fun a b => decide (lev b.natAbs ≤ lev a.natAbs))).length))
        obtain ⟨b, t, hb⟩ := List.exists_cons_of_ne_nil
          (List.ne_nil_of_length_pos (by
            rw [ha] at hsortlen
            simp only [List.length_cons] at hsortlen
            omega : 0 < rest.length))
        have hs : (s'.cls ++ [-uip]).mergeSort
            (fun a b => decide (lev b.natAbs ≤ lev a.natAbs)) =
            a :: b :: t := by rw [ha, hb]
        have hauip : a = -uip := by
          have := hhead
          rw [hs] at this
          simpa using this
        have hbmem : b ∈ s'.cls ++ [-uip] := by
          rw [← hperm.mem_iff, hs]
          exact List.mem_cons_of_mem a (List.mem_cons_self b t)
        have hbne : b ≠ -uip := by
          intro hcon
          have hcnt : 2 ≤ ((s'.cls ++ [-uip]).mergeSort
              (fun a b => decide (lev b.natAbs ≤ lev a.natAbs))).count
              (-uip) := by
            rw [hs, hauip, hcon]
            rw [List.count_cons_self, List.count_cons_self]
            omega
          rw [hperm.count_eq, List.count_append] at hcnt
          have hone : List.count (-uip) [-uip] = 1 := by simp
          rw [hone] at hcnt
          have hmemcls : -uip ∈ s'.cls :=
            List.count_pos_iff_mem.mp (by omega)
          have := (hclsfacts _ hmemcls).2
          omega
        have hbcls : b ∈ s'.cls := by
          rcases List.mem_append.mp hbmem with h | h
          · exact h
          · exact absurd (List.mem_singleton.mp h) hbne
        have hb1 : ((s'.cls ++ [-uip]).mergeSort
            (fun a b => decide (lev b.natAbs ≤ lev a.natAbs))).getD 1 0 =
            b := by
          rw [hs]
          rfl
        rw [hb1]
        exact (hclsfacts b hbcls).2
      · -- every later literal's level is at most position 1's
        obtain ⟨a, rest, ha⟩ := List.exists_cons_of_ne_nil
          (List.ne_nil_of_length_pos (by omega :
            0 < ((s'.cls ++ [-uip]).mergeSort
              (fun a b => decide (lev b.natAbs ≤ lev a.natAbs))).length))
        obtain ⟨b, t, hb⟩ := List.exists_cons_of_ne_nil
          (List.ne_nil_of_length_pos (by
            rw [ha] at hsortlen
            simp only [List.length_cons] at hsortlen
            omega : 0 < rest.length))
        have hs : (s'.cls ++ [-uip]).mergeSort
            (fun a b => decide (lev b.natAbs ≤ lev a.natAbs)) =
            a :: b :: t := by rw [ha, hb]
        intro k h1 h2
        have hb1 : ((s'.cls ++ [-uip]).mergeSort
            (fun a b => decide (lev b.natAbs ≤ lev a.natAbs))).getD 1 0 =
            b := by
          rw [hs]
          rfl
        rw [hb1, hs]
        rw [hs] at hpw h2
        exact sorted_desc_second (fun l => lev l.natAbs) a b t hpw k h1 h2
      · intro l hl
        rcases List.mem_append.mp (hperm.mem_iff.mp hl) with h | h
        · obtain ⟨hp, hlt⟩ := hclsfacts l h
          exact ⟨hp, le_of_lt hlt⟩
        · rw [List.mem_singleton.mp h]
          rw [hlevneg]
          exact ⟨Hcur, le_refl _⟩
    · -- glue over the sorted clause equals glue over cls ++ [-uip]
      refine hglue.trans (congrArg Finset.card ?_)
      apply Finset.ext
      intro x
      simp only [List.mem_toFinset]
      exact (List.Perm.mem_iff (List.Perm.map _ hperm)).symm

theorem analyze_spec_C3_witness :
    ∃ res : AnalyzeResult,
      analyze (fun _ => 1) 1 (fun v => if v = 2 then [2, -1] else [])
        [1, 2] [-1, -2] = some res ∧
      (fun _ : ℕ => 1) res.asserted.natAbs = 1 ∧
      res.asserted ≠ 0 ∧
      res.glue =
        ((res.learned.map (fun l => (fun _ : ℕ => 1) l.natAbs)).toFinset).card := by
  obtain ⟨res, h1, h2, h3, _, _, h6⟩ :=
    analyze_spec_C3 (fun _ => 1) 1 (fun v => if v = 2 then [2, -1] else [])
      [1, 2] [-1, -2]
      (by decide) (by decide) (by decide) (by decide) (by decide)
      (by decide) (by decide) (by decide)
  exact ⟨res, h1, h2, h3, h6⟩
